import Mathlib

/-
Verification of the UE-CGRA analytical-model repository (Graph.py, Node.py,
Simulator.py, PowerModel.py, parameters.py) against its natural-language
specification.

Shallow-embedding conventions used throughout this development:

- Python dicts are modelled as insertion-ordered association lists
  (`List (String × β)`); dict insertion adds at the end, `del` removes the
  (unique) entry, and iteration follows list order, matching CPython's
  insertion-ordered dict semantics.
- Python sets are modelled as duplicate-free lists.  CPython set iteration
  order is unspecified; where the source iterates over a set we fix a
  deterministic order (insertion order).  All properties proved or refuted
  below are insensitive to that choice.
- IEEE-754 doubles are modelled as exact rationals (ℚ).  All numeric
  literals appearing in the source (0.65, 0.99, -0.001, ...) are taken at
  their exact decimal value.  The one claim that hinges on actual binary64
  rounding behaviour (the 0.66-clock snap in Simulator.run) is treated with
  a bit-exact dyadic model of binary64 arithmetic in its own section.
- Fallible operations (Python KeyError / IndexError / ValueError) are
  modelled with `Option`, `none` standing for a raised exception.
- Python truthiness of token values (False or a positive int) is modelled
  by ℕ with 0 playing the role of False.
-/

namespace UECGRA

/-! ## Section 1: Token (Simulator.py lines 21-52)

A token carries a value plus a guard (begin time, span, armed flag).
`guarded_read` is a pure read: the source method only inspects fields and
never writes any, so the model is a plain function of the token and the
time. -/

/-- Model of `Token` from Simulator.py: `value` uses ℕ with 0 for Python's
`False`; guard times are exact rationals. -/
structure Token where
  value : ℕ
  guard_begin : ℚ
  guard_span : ℚ
  guard_set : Bool
deriving DecidableEq, Repr

/-- Model of `Token.__init__`. -/
def Token.init : Token :=
  { value := 0, guard_begin := 0, guard_span := 0, guard_set := false }

/-- Model of `Token.set`. -/
def Token.set (t : Token) (v : ℕ) : Token :=
  { t with value := v }

/-- Model of `Token.read`. -/
def Token.read (t : Token) : ℕ :=
  t.value

/-- Model of `Token.guarded_set`. -/
def Token.guarded_set (t : Token) (v : ℕ) (time span : ℚ) : Token :=
  { t with value := v, guard_begin := time, guard_span := span,
           guard_set := true }

/-- Model of `Token.guarded_read` (Simulator.py lines 41-49).  Returns the
stored value when the guard is armed and the elapsed time exceeds the span
up to the -0.001 slack; returns 0 (Python `False`) otherwise. -/
def Token.guarded_read (t : Token) (time : ℚ) : ℕ :=
  if t.guard_set then
    let time_elapsed := time - t.guard_begin
    let diff := time_elapsed - t.guard_span
    if diff > -(1/1000) then t.value else 0
  else 0

/-- Model of `Token.deassert_guard`. -/
def Token.deassert_guard (t : Token) : Token :=
  { t with guard_set := false }

/-! ## Section 2: PowerModel equations (PowerModel.py lines 25-257)

The analytical power model.  All design-time constants are taken verbatim
from the source.  The model state consists of the node lists and the cached
throughput/latency; everything else is a closed-form function of those. -/

/-- Op classes known to the analytical model (keys of `alpha_dict` in
PowerModel.alpha, PowerModel.py lines 206-219). -/
inductive Op where
  | mul | alu | cp | cmp | byp | sram | phi | br | const | zero
deriving DecidableEq, Repr

/-- Model of a configured graph node as the power model sees it: a name, a
voltage and an op class (Node.py fields `name`, `V`, `op`). -/
structure PMNode where
  name : String
  V : ℚ
  op : Op
deriving DecidableEq, Repr

/-- Model of the `PowerModel` state: the (const-filtered) node list, the
(const-filtered) live-in/live-out node list, and the cached throughput and
latency (PowerModel.__init__). -/
structure PowerModel where
  nodes : List PMNode
  l_nodes : List PMNode
  throughput : ℚ
  latency : ℚ
deriving Repr

/-- Number of tiles, `s.N_T = 64` (PowerModel.py line 69). -/
def N_T : ℚ := 64

/-- Number of srams, `s.N_S = 16` (PowerModel.py line 73). -/
def N_S : ℚ := 16

/-- Nominal voltage `s.V_N = 0.9` (PowerModel.py line 79). -/
def V_N : ℚ := 9/10

/-- Leakage fraction `s.gamma = 0.1` (PowerModel.py line 115). -/
def gamma : ℚ := 1/10

/-- SRAM/tile leakage ratio `s.beta = 2.0` (PowerModel.py line 122). -/
def beta : ℚ := 2

/-- Dynamic-power weights relative to a multiply (PowerModel.alpha,
PowerModel.py lines 206-219, with the constants from lines 98-106). -/
def alpha : Op → ℚ
  | .mul => 1
  | .alu => 33/100
  | .cp => 22/100
  | .cmp => 22/100
  | .byp => 11/100
  | .sram => 82/100
  | .phi => 22/100
  | .br => 22/100
  | .const => 0
  | .zero => 0

/-- Frequency-vs-voltage approximation `f(V)` (PowerModel.f, line 165). -/
def fVF (V : ℚ) : ℚ :=
  -11616/10 * V^2 + 40569/10 * V - 16891/10

/-- Dynamic tile power (PowerModel.P_tile_dynamic, line 237).  The source
exponent `s.s` is 2.0 (line 129). -/
def P_tile_dynamic (pm : PowerModel) (V : ℚ) (op : Op) : ℚ :=
  alpha op * pm.throughput * fVF V * V^2

/-- Leakage current (PowerModel.I_L, lines 198-200). -/
def I_L (pm : PowerModel) : ℚ :=
  (gamma * P_tile_dynamic pm V_N .mul) / (V_N * (1 - gamma))

/-- Static tile power (PowerModel.P_tile_static, line 234). -/
def P_tile_static (pm : PowerModel) (V : ℚ) : ℚ :=
  V * I_L pm

/-- Total tile power (PowerModel.P_tile_total, line 240). -/
def P_tile_total (pm : PowerModel) (V : ℚ) (op : Op) : ℚ :=
  P_tile_static pm V + P_tile_dynamic pm V op

/-- Tile energy (PowerModel.E_tile_total, line 243). -/
def E_tile_total (pm : PowerModel) (V : ℚ) (op : Op) : ℚ :=
  P_tile_total pm V op * pm.latency

/-- Static sram power (PowerModel.P_sram_static, line 248). -/
def P_sram_static (pm : PowerModel) (V : ℚ) : ℚ :=
  V * I_L pm * beta

/-- Dynamic sram power (PowerModel.P_sram_dynamic, line 251). -/
def P_sram_dynamic (pm : PowerModel) (V : ℚ) : ℚ :=
  alpha .sram * pm.throughput * fVF V * V^2

/-- Total sram power (PowerModel.P_sram_total, line 254). -/
def P_sram_total (pm : PowerModel) (V : ℚ) : ℚ :=
  P_sram_static pm V + P_sram_dynamic pm V

/-- Sram energy (PowerModel.E_sram_total, line 257). -/
def E_sram_total (pm : PowerModel) (V : ℚ) : ℚ :=
  P_sram_total pm V * pm.latency

/-- Static power over all tiles (PowerModel.P_cgra_static_tiles). -/
def P_cgra_static_tiles (pm : PowerModel) : ℚ :=
  (pm.nodes.map (fun n => P_tile_static pm n.V)).sum

/-- Static power over all srams (PowerModel.P_cgra_static_srams). -/
def P_cgra_static_srams (pm : PowerModel) : ℚ :=
  (pm.l_nodes.map (fun n => P_sram_static pm n.V)).sum

/-- Dynamic power over all tiles (PowerModel.P_cgra_dynamic_tiles). -/
def P_cgra_dynamic_tiles (pm : PowerModel) : ℚ :=
  (pm.nodes.map (fun n => P_tile_dynamic pm n.V n.op)).sum

/-- Dynamic power over all srams (PowerModel.P_cgra_dynamic_srams). -/
def P_cgra_dynamic_srams (pm : PowerModel) : ℚ :=
  (pm.l_nodes.map (fun n => P_sram_dynamic pm n.V)).sum

/-- CGRA static power (PowerModel.P_cgra_static). -/
def P_cgra_static (pm : PowerModel) : ℚ :=
  P_cgra_static_tiles pm + P_cgra_static_srams pm

/-- CGRA dynamic power (PowerModel.P_cgra_dynamic). -/
def P_cgra_dynamic (pm : PowerModel) : ℚ :=
  P_cgra_dynamic_tiles pm + P_cgra_dynamic_srams pm

/-- CGRA tile power (PowerModel.P_cgra_tiles). -/
def P_cgra_tiles (pm : PowerModel) : ℚ :=
  P_cgra_static_tiles pm + P_cgra_dynamic_tiles pm

/-- CGRA sram power (PowerModel.P_cgra_srams). -/
def P_cgra_srams (pm : PowerModel) : ℚ :=
  P_cgra_static_srams pm + P_cgra_dynamic_srams pm

/-- CGRA total power (PowerModel.P_cgra_total). -/
def P_cgra_total (pm : PowerModel) : ℚ :=
  P_cgra_static pm + P_cgra_dynamic pm

/-- CGRA static tile energy (PowerModel.E_cgra_static_tiles). -/
def E_cgra_static_tiles (pm : PowerModel) : ℚ :=
  P_cgra_static_tiles pm * pm.latency

/-- CGRA static sram energy (PowerModel.E_cgra_static_srams). -/
def E_cgra_static_srams (pm : PowerModel) : ℚ :=
  P_cgra_static_srams pm * pm.latency

/-- CGRA dynamic tile energy (PowerModel.E_cgra_dynamic_tiles). -/
def E_cgra_dynamic_tiles (pm : PowerModel) : ℚ :=
  P_cgra_dynamic_tiles pm * pm.latency

/-- CGRA dynamic sram energy (PowerModel.E_cgra_dynamic_srams). -/
def E_cgra_dynamic_srams (pm : PowerModel) : ℚ :=
  P_cgra_dynamic_srams pm * pm.latency

/-- CGRA static energy (PowerModel.E_cgra_static). -/
def E_cgra_static (pm : PowerModel) : ℚ :=
  P_cgra_static pm * pm.latency

/-- CGRA dynamic energy (PowerModel.E_cgra_dynamic). -/
def E_cgra_dynamic (pm : PowerModel) : ℚ :=
  P_cgra_dynamic pm * pm.latency

/-- CGRA tile energy (PowerModel.E_cgra_tiles). -/
def E_cgra_tiles (pm : PowerModel) : ℚ :=
  P_cgra_tiles pm * pm.latency

/-- CGRA sram energy (PowerModel.E_cgra_srams). -/
def E_cgra_srams (pm : PowerModel) : ℚ :=
  P_cgra_srams pm * pm.latency

/-- CGRA total energy (PowerModel.E_cgra_total, non-verbose branch). -/
def E_cgra_total (pm : PowerModel) : ℚ :=
  P_cgra_total pm * pm.latency

/-- Power-allocation envelope `s.P_alloc` as computed in the constructor
(PowerModel.py lines 156-157). -/
def P_alloc (pm : PowerModel) : ℚ :=
  N_T * P_tile_total pm V_N .mul + N_S * P_sram_total pm V_N

/-- Model of the `PowerModel.__init__` state at the end of construction:
the simulator is not invoked (line 141: `perf = dict with throughput 0 and
latency 0`), so the cached throughput and latency are 0. -/
def PowerModel.mk_init (nodes l_nodes : List PMNode) : PowerModel :=
  { nodes := nodes, l_nodes := l_nodes, throughput := 0, latency := 0 }

/-! ## Section 3: Autosearch Phase-3 voltage pick (PowerModel.py 814-827)

The Phase-3 selection step receives the map `ed_product` from candidate
voltages to their measured ED products and commits one voltage.  The dict
is modelled as an association list in insertion order, which is the
ascending `vf_options` order from the source. -/

/-- Model of Python `max` over a nonempty list of rationals.  The source
applies it to `ed_product.values()`; on an empty collection Python raises,
which the model maps to 0 (the claim below only exercises nonempty
inputs). -/
def pyMax (l : List ℚ) : ℚ :=
  match l with
  | [] => 0
  | v :: vs => vs.foldl max v

/-- Model of the Phase-3 commit choice (PowerModel.py lines 814-821 and the
identical energy-first copy at lines 969-976):

    max_ed = max( ed_product.values() )
    max_vf = 0
    for vf, value in ed_product.items():
      if max_ed >= 0.99*value:
        max_vf = vf

returning the final `max_vf`. -/
def pick_max_vf (ed_product : List (ℚ × ℚ)) : ℚ :=
  let max_ed := pyMax (ed_product.map Prod.snd)
  ed_product.foldl
    (fun max_vf p => if max_ed ≥ 99/100 * p.2 then p.1 else max_vf) 0

/-- Helper: the ED product recorded for a given candidate voltage (first
binding in the association list). -/
def ed_of (ed_product : List (ℚ × ℚ)) (vf : ℚ) : ℚ :=
  ((ed_product.filter (fun p => p.1 = vf)).map Prod.snd).headI

/-! ## Section 4: Graph (Graph.py lines 17-171)

A `Graph` carries the node-name dictionary keys, the two adjacency
mappings and the recurrence-edge list.  Adjacency mappings are dicts of
sets in the source; here: association lists of duplicate-free lists. -/

/-- Adjacency mapping, modelling a Python dict from node name to a set of
node names. -/
abbrev AdjList := List (String × List String)

/-- Dict lookup (`d[k]` returning `none` for a KeyError). -/
def alookup (al : AdjList) (k : String) : Option (List String) :=
  match al with
  | [] => none
  | p :: rest => if p.1 = k then some p.2 else alookup rest k

/-- Dict assignment `d[k] = v` for an existing key. -/
def alSet (al : AdjList) (k : String) (v : List String) : AdjList :=
  match al with
  | [] => []
  | p :: rest => (if p.1 = k then (p.1, v) else p) :: alSet rest k v

/-- Dict deletion `del d[k]`. -/
def alDrop (al : AdjList) (k : String) : AdjList :=
  match al with
  | [] => []
  | p :: rest => if p.1 = k then alDrop rest k else p :: alDrop rest k

/-- Dict lookup with the `[]` default used by `get_srcs`/`get_dsts`. -/
def lookupD (al : AdjList) (k : String) : List String :=
  (alookup al k).getD []

/-- Python `set.add`, modelled as append-if-absent. -/
def setAdd (l : List String) (v : String) : List String :=
  if v ∈ l then l else l ++ [v]

/-- The two-line idiom from `Graph.connect`: create the key with an empty
set if absent, then add the value to the set. -/
def alAddEdge (al : AdjList) (k v : String) : AdjList :=
  match alookup al k with
  | some l => alSet al k (setAdd l v)
  | none => al ++ [(k, [v])]

/-- The removal idiom from `Graph.disconnect`: if the key exists, discard
the value from its set, then delete the key if the set became empty. -/
def alRemoveEdge (al : AdjList) (k v : String) : AdjList :=
  match alookup al k with
  | none => al
  | some l =>
    let l2 := l.erase v
    if l2 = [] then alDrop al k
    else alSet al k l2

/-- Model of `Graph`: the node-name keys of `s.nodes` in insertion order,
both adjacency mappings, and the recurrence-edge list. -/
structure Graph where
  nodes : List String
  srcs_adjlist : AdjList
  dsts_adjlist : AdjList
  recurrence_edges : List (String × String)
deriving DecidableEq, Repr

/-- Model of `Graph.__init__`. -/
def Graph.empty : Graph :=
  { nodes := [], srcs_adjlist := [], dsts_adjlist := [],
    recurrence_edges := [] }

/-- Model of `Graph.get_srcs` (Graph.py lines 53-57). -/
def Graph.get_srcs (g : Graph) (node_name : String) : List String :=
  lookupD g.srcs_adjlist node_name

/-- Model of `Graph.get_dsts` (Graph.py lines 59-63). -/
def Graph.get_dsts (g : Graph) (node_name : String) : List String :=
  lookupD g.dsts_adjlist node_name

/-- Model of `Graph.connect` (Graph.py lines 82-93). -/
def Graph.connect (g : Graph) (src_name dst_name : String)
    (recurrence : Bool) : Graph :=
  { g with
    dsts_adjlist := alAddEdge g.dsts_adjlist src_name dst_name,
    srcs_adjlist := alAddEdge g.srcs_adjlist dst_name src_name,
    recurrence_edges :=
      if recurrence then g.recurrence_edges ++ [(src_name, dst_name)]
      else g.recurrence_edges }

/-- Model of `Graph.disconnect` (Graph.py lines 95-107).  Note the method
never touches `recurrence_edges`. -/
def Graph.disconnect (g : Graph) (src_name dst_name : String) : Graph :=
  { g with
    dsts_adjlist := alRemoveEdge g.dsts_adjlist src_name dst_name,
    srcs_adjlist := alRemoveEdge g.srcs_adjlist dst_name src_name }

/-! ## Section 5: topological sort (Graph.py lines 113-171)

The Kahn-style sort with recurrence-edge pre-removal and arbitrary
cycle-breaking.  Python raises KeyError/ValueError/IndexError on a
recurrence edge missing from the working adjacency copy; the model returns
`none` there.  Where the source draws an arbitrary element of a set
(`list(nodes)[0]`, `order.extend(set)`), the model fixes insertion order;
the properties proved below do not depend on that choice.  The while loop
is modelled with explicit fuel; the fuel supplied by `topological_sort`
is shown sufficient in the claim-C2 theorem. -/

/-- Recurrence-edge pre-removal (Graph.py lines 125-128): for each
recurrence edge, delete the src from the dst's predecessor list, raising
(`none`) if the key or list element is missing. -/
def removeRecurrence : AdjList → List (String × String) → Option AdjList
  | al, [] => some al
  | al, e :: rest =>
    match alookup al e.2 with
    | none => none
    | some l =>
      if e.1 ∈ l then removeRecurrence (alSet al e.2 (l.erase e.1)) rest
      else none

/-- Total number of predecessor entries in a working adjacency list (used
as part of the loop fuel). -/
def adjEntries (al : AdjList) : ℕ :=
  (al.map (fun p => p.2.length)).sum

/-- One-loop-per-call model of the while loop of `Graph.topological_sort`
(Graph.py lines 136-169).  State: emitted `order`, remaining `nodes`, and
the working predecessor map `adjlist`. -/
def topoLoop : ℕ → List String → List String → AdjList → Option (List String)
  | 0, _, _, _ => none
  | fuel+1, order, nodes, adjlist =>
    if nodes = [] then some order
    else
      let keys := adjlist.map Prod.fst
      let without := nodes.filter (fun n => ¬ n ∈ keys)
      let order2 := order ++ without
      let adjlist2 :=
        (adjlist.map (fun p => (p.1, p.2.filter (fun s => ¬ s ∈ order2)))).filter
          (fun p => ¬ p.2 = [])
      if without = [] then
        match keys with
        | [] => none
        | any_node :: _ =>
          match alookup adjlist2 any_node with
          | none => none
          | some l =>
            if l = [] then none
            else
              let l2 := l.dropLast
              let adjlist3 :=
                if l2 = [] then alDrop adjlist2 any_node
                else alSet adjlist2 any_node l2
              topoLoop fuel order2 keys adjlist3
      else topoLoop fuel order2 keys adjlist2

/-- Model of `Graph.topological_sort` (Graph.py lines 113-171). -/
def Graph.topological_sort (g : Graph) : Option (List String) :=
  match removeRecurrence g.srcs_adjlist g.recurrence_edges with
  | none => none
  | some al => topoLoop (g.nodes.length + adjEntries al + 1) [] g.nodes al

/-! ## Association-list lemmas for the adjacency mappings -/

theorem alookup_alSet (al : AdjList) (k x : String) (v : List String) :
    alookup (alSet al k v) x =
      if x = k then (alookup al k).map (fun _ => v) else alookup al x := by
  induction al with
  | nil => by_cases hx : x = k <;> simp [alSet, alookup, hx]
  | cons a al ih =>
    obtain ⟨a1, a2⟩ := a
    by_cases hak : a1 = k
    · by_cases hax : a1 = x
      · have hxk : x = k := by rw [← hax, hak]
        simp [alSet, alookup, hak, hax, hxk]
      · have hkx : ¬ k = x := by rw [← hak]; exact hax
        have hxk : ¬ x = k := fun h => hkx h.symm
        simp [alSet, alookup, hak, hax, hxk, hkx, ih]
    · by_cases hax : a1 = x
      · have hxk : ¬ x = k := by rw [← hax]; exact hak
        simp [alSet, alookup, hak, hax, hxk]
      · simp [alSet, alookup, hak, hax, ih]

theorem alookup_alDrop (al : AdjList) (k x : String) :
    alookup (alDrop al k) x = if x = k then none else alookup al x := by
  induction al with
  | nil => by_cases hx : x = k <;> simp [alDrop, alookup, hx]
  | cons a al ih =>
    obtain ⟨a1, a2⟩ := a
    by_cases hak : a1 = k
    · by_cases hax : a1 = x
      · have hxk : x = k := by rw [← hax, hak]
        subst hxk
        simp [alDrop, alookup, hak, ih]
      · have hkx : ¬ k = x := by rw [← hak]; exact hax
        have hxk : ¬ x = k := fun h => hkx h.symm
        simp [alDrop, alookup, hak, hax, hxk, hkx, ih]
    · by_cases hax : a1 = x
      · have hxk : ¬ x = k := by rw [← hax]; exact hak
        simp [alDrop, alookup, hak, hax, hxk]
      · simp [alDrop, alookup, hak, hax, ih]

theorem alookup_append_single (al : AdjList) (k x : String) (l : List String) :
    alookup (al ++ [(k, l)]) x =
      if (alookup al x).isSome then alookup al x
      else if x = k then some l else none := by
  induction al with
  | nil =>
    by_cases hx : x = k
    · simp [alookup, hx]
    · have hkx : ¬ k = x := fun h => hx h.symm
      simp [alookup, hx, hkx]
  | cons a al ih =>
    obtain ⟨a1, a2⟩ := a
    by_cases hax : a1 = x
    · simp [alookup, hax]
    · simp [alookup, hax, ih]

theorem lookupD_alAddEdge (al : AdjList) (k v x : String) :
    lookupD (alAddEdge al k v) x =
      if x = k then setAdd (lookupD al k) v else lookupD al x := by
  unfold alAddEdge
  cases hl : alookup al k with
  | some l =>
    unfold lookupD
    rw [alookup_alSet]
    by_cases hx : x = k
    · subst hx; simp [hl]
    · simp [hx]
  | none =>
    unfold lookupD
    rw [alookup_append_single]
    by_cases hx : x = k
    · subst hx; simp [hl, setAdd]
    · cases halx : alookup al x <;> simp [halx, hx]

theorem lookupD_alRemoveEdge (al : AdjList) (k v x : String) :
    lookupD (alRemoveEdge al k v) x =
      if x = k then (lookupD al k).erase v else lookupD al x := by
  unfold alRemoveEdge
  cases hl : alookup al k with
  | none =>
    by_cases hx : x = k
    · subst hx; simp [lookupD, hl]
    · simp [hx]
  | some l =>
    simp only []
    by_cases hemp : l.erase v = []
    · rw [if_pos hemp]
      unfold lookupD
      rw [alookup_alDrop]
      by_cases hx : x = k
      · subst hx; simp [hl, hemp]
      · simp [hx]
    · rw [if_neg hemp]
      unfold lookupD
      rw [alookup_alSet]
      by_cases hx : x = k
      · subst hx; simp [hl]
      · simp [hx]

theorem mem_setAdd {l : List String} {v w : String} :
    w ∈ setAdd l v ↔ w ∈ l ∨ w = v := by
  unfold setAdd
  by_cases hv : v ∈ l
  · simp only [if_pos hv]
    constructor
    · exact Or.inl
    · rintro (h | rfl)
      · exact h
      · exact hv
  · simp [if_neg hv]

theorem nodup_setAdd {l : List String} {v : String} (h : l.Nodup) :
    (setAdd l v).Nodup := by
  unfold setAdd
  by_cases hv : v ∈ l
  · simpa [hv]
  · simp only [if_neg hv]
    simpa [List.nodup_append, hv] using h

/-! ## Claim C6 -/

/-- An edge-mutation operation on a graph: the claim quantifies over all
sequences of `connect` and `disconnect` calls. -/
inductive GraphOp where
  | connect (src dst : String) (recurrence : Bool)
  | disconnect (src dst : String)
deriving DecidableEq, Repr

/-- Apply one edge-mutation operation. -/
def applyOp (g : Graph) : GraphOp → Graph
  | .connect src dst r => g.connect src dst r
  | .disconnect src dst => g.disconnect src dst

/-- The graph state reached from a fresh `Graph()` by a sequence of
connect/disconnect operations. -/
def buildGraph (ops : List GraphOp) : Graph :=
  ops.foldl applyOp Graph.empty

/-- The adjacency-symmetry invariant together with set-ness (no duplicate
entries) of every adjacency set. -/
def AdjInvariant (g : Graph) : Prop :=
  (∀ x y, y ∈ g.get_srcs x ↔ x ∈ g.get_dsts y) ∧
  (∀ x, (g.get_srcs x).Nodup) ∧
  (∀ x, (g.get_dsts x).Nodup)

theorem adjInvariant_empty : AdjInvariant Graph.empty := by
  refine ⟨fun x y => ?_, fun x => ?_, fun x => ?_⟩ <;>
    simp [Graph.empty, Graph.get_srcs, Graph.get_dsts, lookupD, alookup]

theorem adjInvariant_connect (g : Graph) (src dst : String) (r : Bool)
    (h : AdjInvariant g) : AdjInvariant (g.connect src dst r) := by
  obtain ⟨hsym, hns, hnd⟩ := h
  refine ⟨fun x y => ?_, fun x => ?_, fun x => ?_⟩
  · show y ∈ lookupD (alAddEdge g.srcs_adjlist dst src) x ↔
      x ∈ lookupD (alAddEdge g.dsts_adjlist src dst) y
    have hsym2 : ∀ a b, b ∈ lookupD g.srcs_adjlist a ↔ a ∈ lookupD g.dsts_adjlist b := by
      intro a b; simpa [Graph.get_srcs, Graph.get_dsts] using hsym a b
    rw [lookupD_alAddEdge, lookupD_alAddEdge]
    by_cases hx : x = dst <;> by_cases hy : y = src <;>
      simp [hx, hy, mem_setAdd, hsym2]
  · show (lookupD (alAddEdge g.srcs_adjlist dst src) x).Nodup
    rw [lookupD_alAddEdge]
    by_cases hx : x = dst
    · simpa [hx] using nodup_setAdd (hns dst)
    · simpa [hx] using hns x
  · show (lookupD (alAddEdge g.dsts_adjlist src dst) x).Nodup
    rw [lookupD_alAddEdge]
    by_cases hx : x = src
    · simpa [hx] using nodup_setAdd (hnd src)
    · simpa [hx] using hnd x

theorem adjInvariant_disconnect (g : Graph) (src dst : String)
    (h : AdjInvariant g) : AdjInvariant (g.disconnect src dst) := by
  obtain ⟨hsym, hns, hnd⟩ := h
  refine ⟨fun x y => ?_, fun x => ?_, fun x => ?_⟩
  · show y ∈ lookupD (alRemoveEdge g.srcs_adjlist dst src) x ↔
      x ∈ lookupD (alRemoveEdge g.dsts_adjlist src dst) y
    have hsym2 : ∀ a b, b ∈ lookupD g.srcs_adjlist a ↔ a ∈ lookupD g.dsts_adjlist b := by
      intro a b; simpa [Graph.get_srcs, Graph.get_dsts] using hsym a b
    have hnsl : (lookupD g.srcs_adjlist dst).Nodup := hns dst
    have hndl : (lookupD g.dsts_adjlist src).Nodup := hnd src
    rw [lookupD_alRemoveEdge, lookupD_alRemoveEdge]
    by_cases hx : x = dst <;> by_cases hy : y = src <;>
      simp [hx, hy, hnsl.mem_erase_iff, hndl.mem_erase_iff, hsym2]
  · show (lookupD (alRemoveEdge g.srcs_adjlist dst src) x).Nodup
    rw [lookupD_alRemoveEdge]
    by_cases hx : x = dst
    · simpa [hx] using (hns dst).erase src
    · simpa [hx] using hns x
  · show (lookupD (alRemoveEdge g.dsts_adjlist src dst) x).Nodup
    rw [lookupD_alRemoveEdge]
    by_cases hx : x = src
    · simpa [hx] using (hnd src).erase dst
    · simpa [hx] using hnd x

theorem adjInvariant_buildGraph (ops : List GraphOp) :
    AdjInvariant (buildGraph ops) := by
  suffices h : ∀ g, AdjInvariant g → AdjInvariant (ops.foldl applyOp g) by
    exact h Graph.empty adjInvariant_empty
  induction ops with
  | nil => exact fun g hg => hg
  | cons op ops ih =>
    intro g hg
    refine ih (applyOp g op) ?_
    cases op with
    | connect src dst r => exact adjInvariant_connect g src dst r hg
    | disconnect src dst => exact adjInvariant_disconnect g src dst hg

/-- C6: in every graph state reachable by any sequence of connect and
disconnect operations, the two adjacency mappings are symmetric
(`y ∈ get_srcs x` iff `x ∈ get_dsts y`); connect inserts the edge into
both mappings with duplicate edges collapsing (the adjacency sets stay
duplicate-free), and disconnect removes it from both. -/
theorem C6_adjacency_symmetry (ops : List GraphOp) (x y src dst : String)
    (r : Bool) :
    (y ∈ (buildGraph ops).get_srcs x ↔ x ∈ (buildGraph ops).get_dsts y) ∧
    ((buildGraph ops).get_srcs x).Nodup ∧
    ((buildGraph ops).get_dsts x).Nodup ∧
    (src ∈ ((buildGraph ops).connect src dst r).get_srcs dst ∧
      dst ∈ ((buildGraph ops).connect src dst r).get_dsts src) ∧
    (src ∉ ((buildGraph ops).disconnect src dst).get_srcs dst ∧
      dst ∉ ((buildGraph ops).disconnect src dst).get_dsts src) := by
  obtain ⟨hsym, hns, hnd⟩ := adjInvariant_buildGraph ops
  refine ⟨hsym x y, hns x, hnd x, ⟨?_, ?_⟩, ?_, ?_⟩
  · show src ∈ lookupD (alAddEdge (buildGraph ops).srcs_adjlist dst src) dst
    rw [lookupD_alAddEdge]
    simp [mem_setAdd]
  · show dst ∈ lookupD (alAddEdge (buildGraph ops).dsts_adjlist src dst) src
    rw [lookupD_alAddEdge]
    simp [mem_setAdd]
  · show src ∉ lookupD (alRemoveEdge (buildGraph ops).srcs_adjlist dst src) dst
    have hnsl : (lookupD (buildGraph ops).srcs_adjlist dst).Nodup := hns dst
    rw [lookupD_alRemoveEdge]
    simp [hnsl.mem_erase_iff]
  · show dst ∉ lookupD (alRemoveEdge (buildGraph ops).dsts_adjlist src dst) src
    have hndl : (lookupD (buildGraph ops).dsts_adjlist src).Nodup := hnd src
    rw [lookupD_alRemoveEdge]
    simp [hndl.mem_erase_iff]

/-! ## Claim C8 -/

theorem removeRecurrence_eq_none (rec : List (String × String)) (al : AdjList)
    (u v : String) (hmem : (u, v) ∈ rec) (habs : u ∉ lookupD al v) :
    removeRecurrence al rec = none := by
  induction rec generalizing al with
  | nil => cases hmem
  | cons e rest ih =>
    obtain ⟨e1, e2⟩ := e
    rcases List.mem_cons.mp hmem with heq | hmem2
    · injection heq with h1 h2
      subst h1; subst h2
      simp only [removeRecurrence]
      cases halv : alookup al v with
      | none => simp
      | some l =>
        have hul : u ∉ l := fun hl => habs (by simpa [lookupD, halv] using hl)
        simp [hul]
    · simp only [removeRecurrence]
      cases halv : alookup al e2 with
      | none => simp
      | some l =>
        by_cases hel : e1 ∈ l
        · have habs2 : u ∉ lookupD (alSet al e2 (l.erase e1)) v := by
            unfold lookupD
            rw [alookup_alSet]
            by_cases hv : v = e2
            · subst hv
              rw [halv]
              intro hu
              exact habs (by
                simp only [Option.map_some, Option.getD_some] at hu
                simpa [lookupD, halv] using List.mem_of_mem_erase hu)
            · simpa [hv, lookupD] using habs
          simp [hel, ih _ hmem2 habs2]
        · simp [hel]

/-- C8: `disconnect(u, v)` never removes `(u, v)` from the graph's
recurrence-edge list, and on any graph in which a recurrence-marked edge
has been removed from the predecessor sets by `disconnect`, a subsequent
`topological_sort` raises (the dict lookup / `list.index` call for the
vanished edge fails, modelled by `none`) instead of returning an
ordering. -/
theorem C8_disconnect_keeps_recurrence_and_sort_raises (g : Graph)
    (u v : String) (hmem : (u, v) ∈ g.recurrence_edges)
    (hnd : (g.get_srcs v).Nodup) :
    (g.disconnect u v).recurrence_edges = g.recurrence_edges ∧
    (g.disconnect u v).topological_sort = none := by
  refine ⟨rfl, ?_⟩
  have hndl : (lookupD g.srcs_adjlist v).Nodup := hnd
  have habs : u ∉ lookupD (alRemoveEdge g.srcs_adjlist v u) v := by
    rw [lookupD_alRemoveEdge]
    simp [hndl.mem_erase_iff]
  unfold Graph.topological_sort
  have hs : (g.disconnect u v).srcs_adjlist = alRemoveEdge g.srcs_adjlist v u := rfl
  have hr : (g.disconnect u v).recurrence_edges = g.recurrence_edges := rfl
  rw [hs, hr, removeRecurrence_eq_none g.recurrence_edges _ u v hmem habs]

/-- Witness for C8 on the two-node graph with the single recurrence edge
a → b, after disconnecting that edge. -/
theorem C8_disconnect_witness :
    ((Graph.mk ["a", "b"] [("b", ["a"])] [("a", ["b"])]
        [("a", "b")]).disconnect "a" "b").recurrence_edges = [("a", "b")] ∧
    ((Graph.mk ["a", "b"] [("b", ["a"])] [("a", ["b"])]
        [("a", "b")]).disconnect "a" "b").topological_sort = none := by
  have h := C8_disconnect_keeps_recurrence_and_sort_raises
    (Graph.mk ["a", "b"] [("b", ["a"])] [("a", ["b"])] [("a", "b")])
    "a" "b" (by decide) (by decide)
  exact ⟨h.1, h.2⟩

/-! ## Claim C2: auxiliary list and association-list lemmas -/

/-- The name u appears strictly before the name v in the list (both are
members and the first occurrence of u has the smaller index). -/
def Precedes (l : List String) (u v : String) : Prop :=
  u ∈ l ∧ v ∈ l ∧ l.indexOf u < l.indexOf v

instance (l : List String) (u v : String) : Decidable (Precedes l u v) := by
  unfold Precedes; infer_instance

theorem precedes_append_left {l : List String} (w : List String)
    {u v : String} (h : Precedes l u v) : Precedes (l ++ w) u v := by
  obtain ⟨hu, hv, hlt⟩ := h
  exact ⟨List.mem_append_left w hu, List.mem_append_left w hv, by
    rw [List.indexOf_append_of_mem hu, List.indexOf_append_of_mem hv]; exact hlt⟩

theorem precedes_append_cross {l w : List String} {u v : String}
    (hu : u ∈ l) (hv : v ∉ l) (hvw : v ∈ w) : Precedes (l ++ w) u v := by
  refine ⟨List.mem_append_left w hu, List.mem_append_right l hvw, ?_⟩
  rw [List.indexOf_append_of_mem hu, List.indexOf_append_of_not_mem hv]
  calc l.indexOf u < l.length := List.indexOf_lt_length.mpr hu
    _ ≤ l.length + w.indexOf v := Nat.le_add_right _ _

theorem length_filter_lt_of_mem_not {l : List String} {p : String → Bool}
    {a : String} (ha : a ∈ l) (hpa : ¬ p a) :
    (l.filter p).length < l.length := by
  induction l with
  | nil => cases ha
  | cons b l ih =>
    rcases List.mem_cons.mp ha with rfl | hb
    · simp only [List.filter_cons, hpa, Bool.false_eq_true, ite_false,
        List.length_cons]
      exact Nat.lt_succ_of_le (List.length_filter_le p l)
    · by_cases hpb : p b
      · simpa [List.filter_cons, hpb] using ih hb
      · simp only [List.filter_cons, hpb, Bool.false_eq_true, ite_false,
        List.length_cons]
        exact Nat.lt_succ_of_le (Nat.le_of_lt (ih hb))

theorem alookup_some_mem {al : AdjList} {k : String} {l : List String}
    (h : alookup al k = some l) : (k, l) ∈ al := by
  induction al with
  | nil => cases h
  | cons a al ih =>
    obtain ⟨a1, a2⟩ := a
    by_cases hak : a1 = k
    · subst hak
      have h2 : a2 = l := by simpa [alookup] using h
      subst h2
      exact List.mem_cons_self _ _
    · simp only [alookup, hak, if_false] at h
      exact List.mem_cons_of_mem _ (ih h)

theorem alookup_eq_none_of_not_mem_keys {al : AdjList} {k : String}
    (h : k ∉ al.map Prod.fst) : alookup al k = none := by
  induction al with
  | nil => rfl
  | cons a al ih =>
    obtain ⟨a1, a2⟩ := a
    simp only [List.map_cons, List.mem_cons, not_or] at h
    have hak : ¬ a1 = k := fun he => h.1 he.symm
    simp only [alookup, hak, if_false]
    exact ih h.2

theorem alookup_of_mem_nodupkeys {al : AdjList} {p : String × List String}
    (hnd : (al.map Prod.fst).Nodup) (hp : p ∈ al) :
    alookup al p.1 = some p.2 := by
  induction al with
  | nil => cases hp
  | cons a al ih =>
    obtain ⟨a1, a2⟩ := a
    simp only [List.map_cons, List.nodup_cons] at hnd
    rcases List.mem_cons.mp hp with rfl | hmem
    · simp [alookup]
    · have hne : ¬ a1 = p.1 := by
        intro he
        exact hnd.1 (he ▸ (List.mem_map.mpr ⟨p, hmem, rfl⟩))
      simp only [alookup, hne, if_false]
      exact ih hnd.2 hmem

theorem alookup_map_keydep (al : AdjList) (x : String)
    (filt : String → List String → List String) :
    alookup (al.map (fun p => (p.1, filt p.1 p.2))) x =
      (alookup al x).map (filt x) := by
  induction al with
  | nil => rfl
  | cons a al ih =>
    obtain ⟨a1, a2⟩ := a
    by_cases hax : a1 = x
    · subst hax; simp [alookup]
    · simp [alookup, hax, ih]

theorem lookupD_filter_nonempty {al : AdjList}
    (hnd : (al.map Prod.fst).Nodup) (x : String) :
    lookupD (al.filter (fun p => ¬ p.2 = [])) x = lookupD al x := by
  induction al with
  | nil => rfl
  | cons a al ih =>
    obtain ⟨a1, a2⟩ := a
    simp only [List.map_cons, List.nodup_cons] at hnd
    rw [List.filter_cons]
    by_cases hemp : a2 = []
    · rw [if_neg (by simp [hemp])]
      rw [ih hnd.2]
      subst hemp
      by_cases hax : a1 = x
      · subst hax
        have h0 : alookup al a1 = none :=
          alookup_eq_none_of_not_mem_keys hnd.1
        simp [lookupD, alookup, h0]
      · simp [lookupD, alookup, hax]
    · rw [if_pos (by simp [hemp])]
      by_cases hax : a1 = x
      · subst hax; simp [lookupD, alookup]
      · simp only [lookupD, alookup, hax, if_false]
        exact ih hnd.2

/-- Any finite nonempty set of names in which every element has an
R-predecessor inside the set contains an element lying on an R-cycle
(bounded form, by strong induction on the length bound). -/
theorem exists_cycle_of_all_have_pred_bounded (R : String → String → Prop) :
    ∀ (n : ℕ) (S : List String), S.length ≤ n → S ≠ [] →
      (∀ v ∈ S, ∃ u ∈ S, R u v) →
      ∃ v ∈ S, Relation.TransGen R v v := by
  intro n
  induction n with
  | zero =>
    intro S hlen hne _
    cases S with
    | nil => exact absurd rfl hne
    | cons a l => simp at hlen
  | succ n ih =>
    intro S hlen hne hpred
    classical
    obtain ⟨v0, hv0S⟩ : ∃ v0, v0 ∈ S := by
      cases S with
      | nil => exact absurd rfl hne
      | cons a l => exact ⟨a, List.mem_cons_self _ _⟩
    by_cases hv0 : Relation.TransGen R v0 v0
    · exact ⟨v0, hv0S, hv0⟩
    · have hTsub : ∀ x ∈ S.filter (fun x => decide (Relation.TransGen R x v0)),
          x ∈ S ∧ Relation.TransGen R x v0 := by
        intro x hx
        have := List.mem_filter.mp hx
        exact ⟨this.1, of_decide_eq_true this.2⟩
      have hTne : S.filter (fun x => decide (Relation.TransGen R x v0)) ≠ [] := by
        obtain ⟨u, hu, hru⟩ := hpred v0 hv0S
        have hmem : u ∈ S.filter (fun x => decide (Relation.TransGen R x v0)) :=
          List.mem_filter.mpr ⟨hu, decide_eq_true (Relation.TransGen.single hru)⟩
        intro he
        rw [he] at hmem
        cases hmem
      have hTpred : ∀ t ∈ S.filter (fun x => decide (Relation.TransGen R x v0)),
          ∃ u ∈ S.filter (fun x => decide (Relation.TransGen R x v0)), R u t := by
        intro t ht
        obtain ⟨htS, htv0⟩ := hTsub t ht
        obtain ⟨u, hu, hru⟩ := hpred t htS
        refine ⟨u, List.mem_filter.mpr ⟨hu, decide_eq_true ?_⟩, hru⟩
        exact Relation.TransGen.head hru htv0
      have hTlen : (S.filter (fun x => decide (Relation.TransGen R x v0))).length ≤ n := by
        have hlt : (S.filter (fun x => decide (Relation.TransGen R x v0))).length
            < S.length :=
          length_filter_lt_of_mem_not hv0S (by simp [hv0])
        omega
      obtain ⟨v, hvT, hcyc⟩ := ih _ hTlen hTne hTpred
      exact ⟨v, (hTsub v hvT).1, hcyc⟩

theorem alSet_map_fst (al : AdjList) (k : String) (v : List String) :
    (alSet al k v).map Prod.fst = al.map Prod.fst := by
  induction al with
  | nil => rfl
  | cons a al ih =>
    obtain ⟨a1, a2⟩ := a
    by_cases hak : a1 = k <;> simp [alSet, hak, ih]

theorem mem_alSet_cases {al : AdjList} {k : String} {v : List String}
    {p : String × List String} (hp : p ∈ alSet al k v) :
    p.2 = v ∨ p ∈ al := by
  induction al with
  | nil => cases hp
  | cons a al ih =>
    obtain ⟨a1, a2⟩ := a
    simp only [alSet, List.mem_cons] at hp
    rcases hp with rfl | hp
    · by_cases hak : a1 = k
      · simp [hak]
      · simp [hak]
    · rcases ih hp with h | h
      · exact Or.inl h
      · exact Or.inr (List.mem_cons_of_mem _ h)

theorem alSet_of_not_mem_keys {al : AdjList} {k : String}
    (h : k ∉ al.map Prod.fst) (v : List String) : alSet al k v = al := by
  induction al with
  | nil => rfl
  | cons a al ih =>
    obtain ⟨a1, a2⟩ := a
    simp only [List.map_cons, List.mem_cons, not_or] at h
    have hak : ¬ a1 = k := fun he => h.1 he.symm
    simp [alSet, hak, ih h.2]

theorem map_filter_alSet_step (al : AdjList) (e1 e2 : String)
    (l : List String) (rest : List (String × String))
    (hkeys : (al.map Prod.fst).Nodup)
    (hvals : ∀ p ∈ al, p.2.Nodup)
    (halv : alookup al e2 = some l) :
    (alSet al e2 (l.erase e1)).map
        (fun p => (p.1, p.2.filter (fun s => (s, p.1) ∉ rest)))
      = al.map
        (fun p => (p.1, p.2.filter (fun s => (s, p.1) ∉ (e1, e2) :: rest))) := by
  induction al with
  | nil => rfl
  | cons a al ih =>
    obtain ⟨a1, a2⟩ := a
    simp only [List.map_cons, List.nodup_cons] at hkeys
    by_cases hak : a1 = e2
    · subst hak
      have hl : a2 = l := by simpa [alookup] using halv
      subst hl
      have hnd2 : a2.Nodup := hvals (a1, a2) (List.mem_cons_self _ _)
      have hkey_rest : alSet al a1 (a2.erase e1) = al :=
        alSet_of_not_mem_keys hkeys.1 _
      have hhead : (a2.erase e1).filter (fun s => (s, a1) ∉ rest)
          = a2.filter (fun s => (s, a1) ∉ (e1, a1) :: rest) := by
        rw [hnd2.erase_eq_filter, List.filter_filter]
        refine List.filter_congr ?_
        intro s _
        by_cases hse : s = e1
        · subst hse; simp
        · simp [hse]
      have htail : al.map (fun p => (p.1, p.2.filter (fun s => (s, p.1) ∉ rest)))
          = al.map (fun p => (p.1, p.2.filter (fun s => (s, p.1) ∉ (e1, a1) :: rest))) := by
        refine List.map_congr_left ?_
        intro p hp
        have hp1 : ¬ p.1 = a1 := by
          intro he
          exact hkeys.1 (he ▸ List.mem_map.mpr ⟨p, hp, rfl⟩)
        have : p.2.filter (fun s => (s, p.1) ∉ rest)
            = p.2.filter (fun s => (s, p.1) ∉ (e1, a1) :: rest) := by
          refine List.filter_congr ?_
          intro s _
          have : ((s, p.1) ∈ (e1, a1) :: rest) ↔ ((s, p.1) ∈ rest) := by
            simp only [List.mem_cons, Prod.mk.injEq]
            constructor
            · rintro (⟨h1, h2⟩ | h)
              · exact absurd h2 hp1
              · exact h
            · exact Or.inr
          simp [this]
        rw [this]
      simp only [alSet, if_pos rfl, List.map_cons, hkey_rest, htail]
      simpa using hhead
    · have halv2 : alookup al e2 = some l := by
        simpa [alookup, hak] using halv
      have hhead : a2.filter (fun s => (s, a1) ∉ rest)
          = a2.filter (fun s => (s, a1) ∉ (e1, e2) :: rest) := by
        refine List.filter_congr ?_
        intro s _
        have : ((s, a1) ∈ (e1, e2) :: rest) ↔ ((s, a1) ∈ rest) := by
          simp only [List.mem_cons, Prod.mk.injEq]
          constructor
          · rintro (⟨h1, h2⟩ | h)
            · exact absurd h2 hak
            · exact h
          · exact Or.inr
        simp [this]
      simp only [alSet, if_neg hak, List.map_cons, hhead,
        ih hkeys.2 (fun p hp => hvals p (List.mem_cons_of_mem _ hp)) halv2]

theorem removeRecurrence_spec (rec : List (String × String)) (al : AdjList)
    (hrecnd : rec.Nodup)
    (hkeys : (al.map Prod.fst).Nodup)
    (hvals : ∀ p ∈ al, p.2.Nodup)
    (hmem : ∀ e ∈ rec, e.1 ∈ lookupD al e.2) :
    removeRecurrence al rec =
      some (al.map (fun p => (p.1, p.2.filter (fun s => (s, p.1) ∉ rec)))) := by
  induction rec generalizing al with
  | nil => simp [removeRecurrence]
  | cons e rest ih =>
    obtain ⟨e1, e2⟩ := e
    have he12 := hmem (e1, e2) (List.mem_cons_self _ _)
    cases halv : alookup al e2 with
    | none => simp [lookupD, halv] at he12
    | some l =>
      have hentry : (e2, l) ∈ al := alookup_some_mem halv
      have hlnd : l.Nodup := hvals (e2, l) hentry
      have hel : e1 ∈ l := by simpa [lookupD, halv] using he12
      have hrestnd : rest.Nodup := (List.nodup_cons.mp hrecnd).2
      have hheadnotin : (e1, e2) ∉ rest := (List.nodup_cons.mp hrecnd).1
      have hkeys2 : ((alSet al e2 (l.erase e1)).map Prod.fst).Nodup := by
        rw [alSet_map_fst]; exact hkeys
      have hvals2 : ∀ p ∈ alSet al e2 (l.erase e1), p.2.Nodup := by
        intro p hp
        rcases mem_alSet_cases hp with h | h
        · rw [h]; exact hlnd.erase e1
        · exact hvals p h
      have hmem2 : ∀ e ∈ rest, e.1 ∈ lookupD (alSet al e2 (l.erase e1)) e.2 := by
        intro e he
        have hml := hmem e (List.mem_cons_of_mem _ he)
        unfold lookupD
        rw [alookup_alSet]
        by_cases hv : e.2 = e2
        · rw [if_pos hv, halv]
          simp only [Option.map_some', Option.getD_some]
          have hl2 : e.1 ∈ l := by
            rw [hv] at hml
            simpa [lookupD, halv] using hml
          have hne : e.1 ≠ e1 := by
            intro he1
            apply hheadnotin
            have : e = (e1, e2) := by
              obtain ⟨ea, eb⟩ := e
              simp only at he1 hv
              rw [he1, hv]
            exact this ▸ he
          exact hlnd.mem_erase_iff.mpr ⟨hne, hl2⟩
        · rw [if_neg hv]
          exact hml
      have hstep : removeRecurrence al ((e1, e2) :: rest)
          = removeRecurrence (alSet al e2 (l.erase e1)) rest := by
        simp only [removeRecurrence]
        rw [halv]
        simp [hel]
      rw [hstep, ih _ hrestnd hkeys2 hvals2 hmem2,
        map_filter_alSet_step al e1 e2 l rest hkeys hvals halv]

theorem map_fst_keydep_map (al : AdjList)
    (filt : String → List String → List String) :
    (al.map (fun p => (p.1, filt p.1 p.2))).map Prod.fst = al.map Prod.fst := by
  induction al with
  | nil => rfl
  | cons a al ih => simp [ih]

theorem lookupD_cleanup (adjlist : AdjList) (order2 : List String)
    (hkeys : (adjlist.map Prod.fst).Nodup) (k : String) :
    lookupD ((adjlist.map
        (fun p => (p.1, p.2.filter (fun s => ¬ s ∈ order2)))).filter
        (fun p => ¬ p.2 = [])) k
      = (lookupD adjlist k).filter (fun s => ¬ s ∈ order2) := by
  rw [lookupD_filter_nonempty (by
    rw [map_fst_keydep_map adjlist
      (fun _ l => l.filter (fun s => ¬ s ∈ order2))]
    exact hkeys)]
  unfold lookupD
  rw [alookup_map_keydep adjlist k (fun _ l => l.filter (fun s => ¬ s ∈ order2))]
  cases alookup adjlist k <;> simp

theorem length_lt_of_nodup_subset_missing {keys nodes : List String}
    (hknd : keys.Nodup) (hnnd : nodes.Nodup) (hsub : ∀ k ∈ keys, k ∈ nodes)
    {x : String} (hx : x ∈ nodes) (hxk : x ∉ keys) :
    keys.length < nodes.length := by
  have hperm : keys.Perm (nodes.filter (fun n => decide (n ∈ keys))) := by
    refine (List.perm_ext_iff_of_nodup hknd (hnnd.filter _)).mpr ?_
    intro a
    simp only [List.mem_filter, decide_eq_true_eq]
    exact ⟨fun h => ⟨hsub a h, h⟩, fun h => h.2⟩
  rw [hperm.length_eq]
  exact length_filter_lt_of_mem_not hx (by simp [hxk])

theorem without_append_keys_perm {keys nodes : List String}
    (hknd : keys.Nodup) (hnnd : nodes.Nodup) (hsub : ∀ k ∈ keys, k ∈ nodes) :
    (nodes.filter (fun n => ¬ n ∈ keys) ++ keys).Perm nodes := by
  have hnd : (nodes.filter (fun n => ¬ n ∈ keys) ++ keys).Nodup := by
    rw [List.nodup_append]
    refine ⟨hnnd.filter _, hknd, ?_⟩
    intro a ha hak
    have := List.mem_filter.mp ha
    simp only [decide_eq_true_eq] at this
    exact this.2 hak
  refine (List.perm_ext_iff_of_nodup hnd hnnd).mpr ?_
  intro a
  simp only [List.mem_append, List.mem_filter, decide_eq_true_eq]
  constructor
  · rintro (⟨h, _⟩ | h)
    · exact h
    · exact hsub a h
  · intro h
    by_cases hak : a ∈ keys
    · exact Or.inr hak
    · exact Or.inl ⟨h, by simpa using hak⟩

theorem topoLoop_succ_step (fuel : ℕ) (order nodes : List String)
    (adjlist : AdjList) (hn : ¬ nodes = [])
    (hwo : ¬ nodes.filter (fun n => ¬ n ∈ adjlist.map Prod.fst) = []) :
    topoLoop (fuel+1) order nodes adjlist =
      topoLoop fuel
        (order ++ nodes.filter (fun n => ¬ n ∈ adjlist.map Prod.fst))
        (adjlist.map Prod.fst)
        ((adjlist.map (fun p => (p.1, p.2.filter (fun s =>
            ¬ s ∈ order ++ nodes.filter (fun n => ¬ n ∈ adjlist.map Prod.fst))))).filter
          (fun p => ¬ p.2 = [])) := by
  simp only [topoLoop]
  rw [if_neg hn, if_neg hwo]

/-- Correctness of the topological-sort loop on inputs whose working
predecessor map is acyclic: the loop terminates within the supplied fuel,
emits a permutation of all names, and respects every edge of the
recurrence-removed adjacency map `al0`. -/
theorem topoLoop_acyclic
    (al0 : AdjList) (allNames : List String)
    (hallnd : allNames.Nodup)
    (hedge_src : ∀ k u, u ∈ lookupD al0 k → u ∈ allNames)
    (hedge_dst : ∀ k u, u ∈ lookupD al0 k → k ∈ allNames)
    (hacyc : ∀ x, ¬ Relation.TransGen (fun a b => a ∈ lookupD al0 b) x x) :
    ∀ (fuel : ℕ) (order nodes : List String) (adjlist : AdjList),
      nodes.length < fuel →
      nodes.Nodup →
      (adjlist.map Prod.fst).Nodup →
      (∀ k ∈ adjlist.map Prod.fst, k ∈ nodes) →
      (∀ p ∈ adjlist, p.2 ≠ []) →
      (∀ p ∈ adjlist, ∀ s ∈ p.2, s ∉ order) →
      (order ++ nodes).Perm allNames →
      (∀ p ∈ adjlist, ∀ s ∈ p.2, s ∈ lookupD al0 p.1) →
      (∀ k u, u ∈ lookupD al0 k → k ∈ nodes →
        (u ∈ order ∨ u ∈ lookupD adjlist k)) →
      (∀ k u, u ∈ lookupD al0 k → k ∈ order → Precedes order u k) →
      ∃ out, topoLoop fuel order nodes adjlist = some out ∧
        out.Perm allNames ∧
        ∀ k u, u ∈ lookupD al0 k → Precedes out u k := by
  intro fuel
  induction fuel with
  | zero =>
    intro order nodes adjlist hfuel
    exact absurd hfuel (Nat.not_lt_zero _)
  | succ f ih =>
    intro order nodes adjlist hfuel hnodesnd hkeysnd hkeyssub hne2 hnotord
      hperm hsubedge hI8 hI9
    by_cases hn : nodes = []
    · subst hn
      refine ⟨order, by simp [topoLoop], by simpa using hperm, ?_⟩
      intro k u hu
      refine hI9 k u hu ?_
      have hk : k ∈ order ++ ([] : List String) :=
        hperm.mem_iff.mpr (hedge_dst k u hu)
      simpa using hk
    · have hwo : ¬ nodes.filter (fun n => ¬ n ∈ adjlist.map Prod.fst) = [] := by
        intro hempty
        have hallkeys : ∀ n ∈ nodes, n ∈ adjlist.map Prod.fst := by
          intro n hn2
          by_contra hnk
          have hmm : n ∈ nodes.filter (fun n => ¬ n ∈ adjlist.map Prod.fst) :=
            List.mem_filter.mpr ⟨hn2, by simpa using hnk⟩
          rw [hempty] at hmm
          cases hmm
        have hpred : ∀ v ∈ nodes, ∃ u ∈ nodes, u ∈ lookupD al0 v := by
          intro v hv
          obtain ⟨p, hp, hp1⟩ := List.mem_map.mp (hallkeys v hv)
          obtain ⟨s, hs⟩ : ∃ s, s ∈ p.2 := by
            cases hps : p.2 with
            | nil => exact absurd hps (hne2 p hp)
            | cons a l => exact ⟨a, hps ▸ List.mem_cons_self a l⟩
          have hsal : s ∈ lookupD al0 p.1 := hsubedge p hp s hs
          refine ⟨s, ?_, hp1 ▸ hsal⟩
          have hsall : s ∈ allNames := hedge_src p.1 s hsal
          have hsno : s ∉ order := hnotord p hp s hs
          have hsm : s ∈ order ++ nodes := hperm.mem_iff.mpr hsall
          rcases List.mem_append.mp hsm with h | h
          · exact absurd h hsno
          · exact h
        obtain ⟨v, _, hcyc⟩ := exists_cycle_of_all_have_pred_bounded
          (fun a b => a ∈ lookupD al0 b) nodes.length nodes le_rfl hn hpred
        exact hacyc v hcyc
      rw [topoLoop_succ_step f order nodes adjlist hn hwo]
      set K := adjlist.map Prod.fst with hK
      set W := nodes.filter (fun n => ¬ n ∈ K) with hWdef
      set O2 := order ++ W with hO2
      set A2 := (adjlist.map (fun p => (p.1, p.2.filter (fun s => ¬ s ∈ O2)))).filter
        (fun p => ¬ p.2 = []) with hA2
      obtain ⟨x, hxf⟩ := List.exists_mem_of_ne_nil _ hwo
      have hxn : x ∈ nodes ∧ x ∉ K := by
        have := List.mem_filter.mp hxf
        exact ⟨this.1, by simpa using this.2⟩
      have hkl : K.length < nodes.length :=
        length_lt_of_nodup_subset_missing hkeysnd hnodesnd hkeyssub hxn.1 hxn.2
      have hwk : (nodes.filter (fun n => ¬ n ∈ K) ++ K).Perm nodes :=
        without_append_keys_perm hkeysnd hnodesnd hkeyssub
      have hA2struct : ∀ p ∈ A2, ∃ q ∈ adjlist, p.1 = q.1 ∧
          p.2 = q.2.filter (fun s => ¬ s ∈ O2) ∧ p.2 ≠ [] := by
        intro p hp
        rw [hA2] at hp
        have hf := List.mem_filter.mp hp
        obtain ⟨q, hq, heq⟩ := List.mem_map.mp hf.1
        refine ⟨q, hq, ?_, ?_, by simpa using hf.2⟩
        · rw [← heq]
        · rw [← heq]
      have hsub2 : (A2.map Prod.fst).Sublist K := by
        rw [hA2, hK]
        have hs := List.Sublist.map Prod.fst
          (List.filter_sublist (p := fun p => ¬ p.2 = [])
            (adjlist.map (fun p => (p.1, p.2.filter (fun s => ¬ s ∈ O2)))))
        rwa [map_fst_keydep_map adjlist
          (fun _ l => l.filter (fun s => ¬ s ∈ O2))] at hs
      have hcleanup : ∀ k, lookupD A2 k =
          (lookupD adjlist k).filter (fun s => ¬ s ∈ O2) := by
        intro k
        rw [hA2]
        exact lookupD_cleanup adjlist O2 hkeysnd k
      refine ih O2 K A2 (by omega) hkeysnd ?_ ?_ ?_ ?_ ?_ ?_ ?_ ?_
      · exact List.Sublist.nodup hsub2 hkeysnd
      · intro k hk
        exact hsub2.subset hk
      · intro p hp
        obtain ⟨q, hq, _, _, hne⟩ := hA2struct p hp
        exact hne
      · intro p hp s hs
        obtain ⟨q, hq, hq1, hq2, _⟩ := hA2struct p hp
        rw [hq2] at hs
        have := List.mem_filter.mp hs
        simpa using this.2
      · refine List.Perm.trans ?_ hperm
        rw [hO2, List.append_assoc]
        exact List.Perm.append_left order (hWdef ▸ hwk)
      · intro p hp s hs
        obtain ⟨q, hq, hq1, hq2, _⟩ := hA2struct p hp
        rw [hq1]
        rw [hq2] at hs
        exact hsubedge q hq s (List.mem_filter.mp hs).1
      · intro k u hu hkK
        have hknodes : k ∈ nodes := hkeyssub k hkK
        rcases hI8 k u hu hknodes with h | h
        · refine Or.inl ?_
          rw [hO2]
          exact List.mem_append_left _ h
        · by_cases huo : u ∈ O2
          · exact Or.inl huo
          · refine Or.inr ?_
            rw [hcleanup k]
            exact List.mem_filter.mpr ⟨h, by simpa using huo⟩
      · intro k u hu hko
        rw [hO2] at hko ⊢
        rcases List.mem_append.mp hko with hk | hk
        · exact precedes_append_left W (hI9 k u hu hk)
        · have hkk : k ∈ nodes ∧ k ∉ K := by
            have := List.mem_filter.mp (hWdef ▸ hk)
            exact ⟨this.1, by simpa using this.2⟩
          have huor : u ∈ order := by
            rcases hI8 k u hu hkk.1 with h | h
            · exact h
            · have hnone : alookup adjlist k = none :=
                alookup_eq_none_of_not_mem_keys (hK ▸ hkk.2)
              simp [lookupD, hnone] at h
          have hknoto : k ∉ order := by
            have hnda : (order ++ nodes).Nodup := hperm.nodup_iff.mpr hallnd
            have hdisj := (List.nodup_append.mp hnda).2.2
            exact fun hko2 => hdisj hko2 hkk.1
          exact precedes_append_cross huor hknoto hk

/-- A non-recurrence edge of the graph: u is a predecessor of v and the
pair is not in the declared recurrence-edge list. -/
def NonRecEdge (g : Graph) (u v : String) : Prop :=
  u ∈ g.get_srcs v ∧ (u, v) ∉ g.recurrence_edges

/-- C2 (amended): for every well-formed graph (duplicate-free node list
and adjacency dictionary, edge endpoints among the nodes, valid
duplicate-free recurrence declarations, every node with predecessors
keeping at least one non-recurrence predecessor) whose non-recurrence
edges form an acyclic relation, `topological_sort` returns a sequence
containing every node exactly once, in which the source of every
non-recurrence edge precedes its destination. -/
theorem C2_topological_sort_amended (g : Graph)
    (hnodes : g.nodes.Nodup)
    (hkeys : (g.srcs_adjlist.map Prod.fst).Nodup)
    (hkeymem : ∀ p ∈ g.srcs_adjlist, p.1 ∈ g.nodes)
    (hvalnd : ∀ p ∈ g.srcs_adjlist, p.2.Nodup)
    (hvalmem : ∀ p ∈ g.srcs_adjlist, ∀ s ∈ p.2, s ∈ g.nodes)
    (hrecnd : g.recurrence_edges.Nodup)
    (hrecmem : ∀ e ∈ g.recurrence_edges, e.1 ∈ g.get_srcs e.2)
    (hkeeps : ∀ p ∈ g.srcs_adjlist, ∃ s ∈ p.2, (s, p.1) ∉ g.recurrence_edges)
    (hacyc : ∀ x, ¬ Relation.TransGen (NonRecEdge g) x x) :
    ∃ out, g.topological_sort = some out ∧ out.Perm g.nodes ∧
      ∀ u v, NonRecEdge g u v → Precedes out u v := by
  have hrem := removeRecurrence_spec g.recurrence_edges g.srcs_adjlist
    hrecnd hkeys hvalnd (fun e he => hrecmem e he)
  set al0 := g.srcs_adjlist.map
    (fun p => (p.1, p.2.filter (fun s => (s, p.1) ∉ g.recurrence_edges)))
    with hal0def
  have hal0 : ∀ v, lookupD al0 v =
      (lookupD g.srcs_adjlist v).filter
        (fun s => (s, v) ∉ g.recurrence_edges) := by
    intro v
    unfold lookupD
    rw [hal0def, alookup_map_keydep g.srcs_adjlist v
      (fun k l => l.filter (fun s => (s, k) ∉ g.recurrence_edges))]
    cases alookup g.srcs_adjlist v <;> simp
  have hedge_iff : ∀ u v, (u ∈ lookupD al0 v) ↔ NonRecEdge g u v := by
    intro u v
    rw [hal0 v]
    unfold NonRecEdge Graph.get_srcs
    simp [List.mem_filter]
  have hentry_of : ∀ v, (lookupD g.srcs_adjlist v) ≠ [] →
      ∃ l, alookup g.srcs_adjlist v = some l ∧ (v, l) ∈ g.srcs_adjlist := by
    intro v hne
    cases halk : alookup g.srcs_adjlist v with
    | none => exact absurd (by simp [lookupD, halk]) hne
    | some l => exact ⟨l, rfl, alookup_some_mem halk⟩
  have hedge_src : ∀ k u, u ∈ lookupD al0 k → u ∈ g.nodes := by
    intro k u hu
    have h1 := ((hedge_iff u k).mp hu).1
    have h2 : u ∈ lookupD g.srcs_adjlist k := h1
    obtain ⟨l, halk, hentry⟩ := hentry_of k (by
      intro hemp
      rw [hemp] at h2
      cases h2)
    exact hvalmem (k, l) hentry u (by simpa [lookupD, halk] using h2)
  have hedge_dst : ∀ k u, u ∈ lookupD al0 k → k ∈ g.nodes := by
    intro k u hu
    have h1 := ((hedge_iff u k).mp hu).1
    have h2 : u ∈ lookupD g.srcs_adjlist k := h1
    obtain ⟨l, halk, hentry⟩ := hentry_of k (by
      intro hemp
      rw [hemp] at h2
      cases h2)
    exact hkeymem (k, l) hentry
  have hacyc2 : ∀ x, ¬ Relation.TransGen (fun a b => a ∈ lookupD al0 b) x x := by
    intro x hx
    exact hacyc x (hx.mono (fun a b hab => (hedge_iff a b).mp hab))
  have hmain := topoLoop_acyclic al0 g.nodes hnodes hedge_src hedge_dst hacyc2
    (g.nodes.length + adjEntries al0 + 1) [] g.nodes al0
    (by omega)
    hnodes
    (by
      rw [hal0def, map_fst_keydep_map g.srcs_adjlist
        (fun k l => l.filter (fun s => (s, k) ∉ g.recurrence_edges))]
      exact hkeys)
    (by
      intro k hk
      rw [hal0def, map_fst_keydep_map g.srcs_adjlist
        (fun k l => l.filter (fun s => (s, k) ∉ g.recurrence_edges))] at hk
      obtain ⟨p, hp, hp1⟩ := List.mem_map.mp hk
      exact hp1 ▸ hkeymem p hp)
    (by
      intro p hp
      rw [hal0def] at hp
      obtain ⟨q, hq, heq⟩ := List.mem_map.mp hp
      obtain ⟨s, hs, hsp⟩ := hkeeps q hq
      have : s ∈ p.2 := by
        rw [← heq]
        exact List.mem_filter.mpr ⟨hs, by simpa using hsp⟩
      exact List.ne_nil_of_mem this)
    (by intro p _ s _ h; cases h)
    (by simp)
    (by
      intro p hp s hs
      rw [hal0def] at hp
      obtain ⟨q, hq, heq⟩ := List.mem_map.mp hp
      have hq2 : alookup g.srcs_adjlist q.1 = some q.2 :=
        alookup_of_mem_nodupkeys hkeys hq
      have hp1 : p.1 = q.1 := by rw [← heq]
      have hp2 : p.2 = q.2.filter (fun s => (s, q.1) ∉ g.recurrence_edges) := by
        rw [← heq]
      rw [hp1, hal0 q.1]
      have : lookupD g.srcs_adjlist q.1 = q.2 := by simp [lookupD, hq2]
      rw [this]
      rw [hp2] at hs
      exact hs)
    (by
      intro k u hu _
      exact Or.inr hu)
    (by intro k u _ hk; cases hk)
  obtain ⟨out, hloop, hperm, hprec⟩ := hmain
  refine ⟨out, ?_, hperm, ?_⟩
  · unfold Graph.topological_sort
    rw [hrem]
    exact hloop
  · intro u v huv
    exact hprec v u ((hedge_iff u v).mpr huv)

/-- C2 counterexample: on the two-node cyclic graph with edges a → b and
b → a and no declared recurrence edges, the sort succeeds with output
[b, a], in which the source a of the non-recurrence edge (a, b) does not
precede its destination b: the claim fails as stated for cyclic inputs,
where the cycle-breaking step discards an edge. -/
theorem C2_counterexample :
    (Graph.mk ["a", "b"] [("b", ["a"]), ("a", ["b"])]
        [("a", ["b"]), ("b", ["a"])] []).topological_sort = some ["b", "a"] ∧
    "a" ∈ (Graph.mk ["a", "b"] [("b", ["a"]), ("a", ["b"])]
        [("a", ["b"]), ("b", ["a"])] []).get_srcs "b" ∧
    ("a", "b") ∉ (Graph.mk ["a", "b"] [("b", ["a"]), ("a", ["b"])]
        [("a", ["b"]), ("b", ["a"])] []).recurrence_edges ∧
    ¬ Precedes ["b", "a"] "a" "b" := by
  decide

/-- Witness for C2 on the acyclic two-node graph with the single edge
a → b. -/
theorem C2_topological_sort_witness :
    ∃ out, (Graph.mk ["a", "b"] [("b", ["a"])] [("a", ["b"])]
        []).topological_sort = some out ∧
      out.Perm ["a", "b"] ∧
      ∀ u v, NonRecEdge (Graph.mk ["a", "b"] [("b", ["a"])] [("a", ["b"])] [])
        u v → Precedes out u v := by
  refine C2_topological_sort_amended _ (by decide) (by decide) (by decide)
    (by decide) (by decide) (by decide) (by decide) (by decide) ?_
  intro x hx
  have hmono : ∀ u v, NonRecEdge
      (Graph.mk ["a", "b"] [("b", ["a"])] [("a", ["b"])] []) u v →
      (u = "a" ∧ v = "b") := by
    intro u v h
    obtain ⟨h1, _⟩ := h
    by_cases hv : v = "b"
    · subst hv
      have hm : u ∈ ["a"] := by
        simpa [Graph.get_srcs, lookupD, alookup] using h1
      simp only [List.mem_singleton] at hm
      exact ⟨hm, rfl⟩
    · exfalso
      have hbv : ¬ "b" = v := fun h2 => hv h2.symm
      have hm : u ∈ ([] : List String) := by
        simp only [Graph.get_srcs, lookupD, alookup, hbv, if_false,
          Option.getD_none] at h1
        exact h1
      cases hm
  have h2 := hx.mono hmono
  have h3 : Relation.TransGen (fun m n : ℕ => m < n)
      (if x = "a" then 0 else 1) (if x = "a" then 0 else 1) := by
    refine Relation.TransGen.lift (fun u : String => if u = "a" then 0 else 1)
      ?_ h2
    intro a b hab
    rw [hab.1, hab.2]
    simp
  have heq := Relation.transGen_eq_self (r := fun m n : ℕ => m < n)
    (fun a b c hab hbc => Nat.lt_trans hab hbc)
  have h4 := heq ▸ h3
  exact absurd h4 (lt_irrefl _)

/-! ## Section 6: Autosearch Phase 1 grouping (PowerModel.group_nodes,
PowerModel.py lines 391-451)

The chain walks are `while True` loops in the source; the model uses fuel
and distinguishes the three possible outcomes: normal return, a raised
exception (IndexError from `list(...)[0]` on an empty set, KeyError from
`get_node` on a missing node, TypeError from `reduce` over an empty
sequence, AssertionError), and running out of fuel, which models
divergence of the source loop. -/

/-- Outcome of running a piece of Python code: a value, a raised
exception, or nontermination (fuel exhaustion in the model). -/
inductive PyRes (α : Type) where
  | ok (a : α)
  | exn
  | hang
deriving DecidableEq, Repr

/-- Model of the local `is_singly_chained` predicate (PowerModel.py lines
395-398): exactly one predecessor and exactly one successor. -/
def is_singly_chained (g : Graph) (node : String) : Bool :=
  (g.get_srcs node).length == 1 && (g.get_dsts node).length == 1

/-- Model of the forward chain walk (PowerModel.py lines 412-421):
follow the unique successor while it stays singly chained, accumulating
group members and visited names. -/
def walkForward (g : Graph) :
    ℕ → String → List String → List String → PyRes (List String × List String)
  | 0, _, _, _ => .hang
  | fuel+1, current, group, visited =>
    match (g.get_dsts current).head? with
    | none => .exn
    | some nxt =>
      if nxt ∈ g.nodes then
        if is_singly_chained g nxt then
          walkForward g fuel nxt (group ++ [nxt]) (visited ++ [nxt])
        else .ok (group, visited ++ [nxt])
      else .exn

/-- Model of the backward chain walk (PowerModel.py lines 423-432). -/
def walkBackward (g : Graph) :
    ℕ → String → List String → List String → PyRes (List String × List String)
  | 0, _, _, _ => .hang
  | fuel+1, current, group, visited =>
    match (g.get_srcs current).head? with
    | none => .exn
    | some prev =>
      if prev ∈ g.nodes then
        if is_singly_chained g prev then
          walkBackward g fuel prev (group ++ [prev]) (visited ++ [prev])
        else .ok (group, visited ++ [prev])
      else .exn

/-- Model of the main `for node_name in nodes` loop of `group_nodes`
(PowerModel.py lines 403-433), threading the visited list, the groups
dictionary (as an association list) and the counter. -/
def groupNodesLoop (g : Graph) :
    List String → List String → List (ℕ × List String) → ℕ →
    PyRes (List String × List (ℕ × List String) × ℕ)
  | [], visited, groups, count => .ok (visited, groups, count)
  | node_name :: rest, visited, groups, count =>
    if node_name ∈ visited then groupNodesLoop g rest visited groups count
    else
      if is_singly_chained g node_name then
        match walkForward g (g.nodes.length + 1) node_name [node_name]
            (visited ++ [node_name]) with
        | .hang => .hang
        | .exn => .exn
        | .ok (group1, visited2) =>
          match walkBackward g (g.nodes.length + 1) node_name group1 visited2 with
          | .hang => .hang
          | .exn => .exn
          | .ok (group2, visited3) =>
            groupNodesLoop g rest visited3 (groups ++ [(count, group2)]) (count + 1)
      else groupNodesLoop g rest (visited ++ [node_name]) groups count

/-- Model of `PowerModel.group_nodes` (PowerModel.py lines 391-451): the
main loop, then singleton groups for the remaining visited nodes
(`set(visited).difference(set(all_grouped))`, modelled in first-occurrence
order), then the partition assertion.  `reduce` over an empty `values()`
sequence raises, hence the empty-groups case maps to an exception. -/
def group_nodes (g : Graph) : PyRes (List (ℕ × List String)) :=
  match groupNodesLoop g g.nodes [] [] 1 with
  | .hang => .hang
  | .exn => .exn
  | .ok (visited, groups, count) =>
    match groups with
    | [] => .exn
    | _ =>
      let all_grouped := groups.foldl (fun acc p => acc ++ p.2) []
      let other_nodes := visited.dedup.filter (fun n => ¬ n ∈ all_grouped)
      let final := other_nodes.foldl
        (fun (acc : List (ℕ × List String) × ℕ) n =>
          (acc.1 ++ [(acc.2, [n])], acc.2 + 1)) (groups, count)
      if g.nodes.length = (final.1.map (fun p => p.2.length)).sum then
        .ok final.1
      else .exn

/-- One step along a chain of singly-chained nodes: both endpoints are
singly chained and the target is a successor of the source. -/
def SCstep (g : Graph) (a b : String) : Prop :=
  is_singly_chained g a = true ∧ is_singly_chained g b = true ∧
    b ∈ g.get_dsts a

theorem transGen_head_decomp {r : String → String → Prop} {a b : String}
    (h : Relation.TransGen r a b) :
    ∃ c, r a c ∧ Relation.ReflTransGen r c b := by
  induction h with
  | single h => exact ⟨_, h, Relation.ReflTransGen.refl⟩
  | tail h1 h2 ih =>
    obtain ⟨c, hc, hcb⟩ := ih
    exact ⟨c, hc, hcb.tail h2⟩

theorem sc_dsts_singleton {g : Graph} {v d : String}
    (hsc : is_singly_chained g v = true) (hd : d ∈ g.get_dsts v) :
    g.get_dsts v = [d] := by
  have hlen : (g.get_dsts v).length = 1 := by
    simp only [is_singly_chained, Bool.and_eq_true, beq_iff_eq] at hsc
    exact hsc.2
  cases hl : g.get_dsts v with
  | nil => rw [hl] at hlen; cases hlen
  | cons a t =>
    rw [hl] at hlen
    simp only [List.length_cons] at hlen
    have ht : t = [] := List.length_eq_zero.mp (by omega)
    subst ht
    rw [hl] at hd
    simp only [List.mem_singleton] at hd
    rw [hd]

theorem sc_srcs_singleton {g : Graph} {v d : String}
    (hsc : is_singly_chained g v = true) (hd : d ∈ g.get_srcs v) :
    g.get_srcs v = [d] := by
  have hlen : (g.get_srcs v).length = 1 := by
    simp only [is_singly_chained, Bool.and_eq_true, beq_iff_eq] at hsc
    exact hsc.1
  cases hl : g.get_srcs v with
  | nil => rw [hl] at hlen; cases hlen
  | cons a t =>
    rw [hl] at hlen
    simp only [List.length_cons] at hlen
    have ht : t = [] := List.length_eq_zero.mp (by omega)
    subst ht
    rw [hl] at hd
    simp only [List.mem_singleton] at hd
    rw [hd]

/-- On a cycle composed entirely of singly-chained nodes, the forward
chain walk never reaches a non-singly-chained node: it recurses forever
(exhausts any fuel). -/
theorem walkForward_hang_of_cycle (g : Graph)
    (hwf_d : ∀ x, ∀ y ∈ g.get_dsts x, y ∈ g.nodes) :
    ∀ (fuel : ℕ) (v : String) (group visited : List String),
      Relation.TransGen (SCstep g) v v →
      walkForward g fuel v group visited = .hang := by
  intro fuel
  induction fuel with
  | zero => intro v group visited _; rfl
  | succ f ih =>
    intro v group visited hcyc
    obtain ⟨d, hvd, hdv⟩ := transGen_head_decomp hcyc
    have hrest : Relation.TransGen (SCstep g) d d :=
      Relation.TransGen.tail' hdv hvd
    have hdsts : g.get_dsts v = [d] := sc_dsts_singleton hvd.1 hvd.2.2
    simp only [walkForward, hdsts, List.head?_cons]
    rw [if_pos (hwf_d v d hvd.2.2), if_pos hvd.2.1]
    exact ih d _ _ hrest

/-- The forward chain walk terminates (does not exhaust its fuel) when no
cycle of singly-chained nodes exists. -/
theorem walkForward_no_hang (g : Graph)
    (hwf_d : ∀ x, ∀ y ∈ g.get_dsts x, y ∈ g.nodes)
    (hnocyc : ∀ v, ¬ Relation.TransGen (SCstep g) v v) :
    ∀ (fuel : ℕ) (current : String) (group visited path : List String),
      g.nodes.length < fuel + path.length →
      path.Nodup →
      (∀ p ∈ path, p ∈ g.nodes) →
      (∀ p ∈ path, Relation.ReflTransGen (SCstep g) p current) →
      current ∈ path →
      is_singly_chained g current = true →
      walkForward g fuel current group visited ≠ .hang := by
  intro fuel
  induction fuel with
  | zero =>
    intro current group visited path hfuel hnd hsubn _ _ _
    have hle : path.length ≤ g.nodes.length :=
      List.Subperm.length_le (List.Nodup.subperm hnd hsubn)
    omega
  | succ f ih =>
    intro current group visited path hfuel hnd hsubn hreach hcur hsc
    cases hh : (g.get_dsts current).head? with
    | none => simp [walkForward, hh]
    | some nxt =>
      have hmem : nxt ∈ g.get_dsts current := by
        cases hl : g.get_dsts current with
        | nil => rw [hl] at hh; cases hh
        | cons a t =>
          rw [hl] at hh
          simp only [List.head?_cons, Option.some.injEq] at hh
          subst hh
          exact List.mem_cons_self _ _
      have hnode : nxt ∈ g.nodes := hwf_d current nxt hmem
      simp only [walkForward, hh]
      rw [if_pos hnode]
      by_cases hscn : is_singly_chained g nxt = true
      · rw [if_pos hscn]
        have hstep : SCstep g current nxt := ⟨hsc, hscn, hmem⟩
        have hnotin : nxt ∉ path := by
          intro hin
          exact hnocyc nxt
            (Relation.TransGen.tail' (hreach nxt hin) hstep)
        refine ih nxt (group ++ [nxt]) (visited ++ [nxt]) (path ++ [nxt])
          ?_ ?_ ?_ ?_ ?_ hscn
        · simp only [List.length_append, List.length_singleton]
          omega
        · simp [List.nodup_append, hnd, hnotin]
        · intro p hp
          rcases List.mem_append.mp hp with h | h
          · exact hsubn p h
          · simp only [List.mem_singleton] at h
            rw [h]
            exact hnode
        · intro p hp
          rcases List.mem_append.mp hp with h | h
          · exact (hreach p h).tail hstep
          · simp only [List.mem_singleton] at h
            rw [h]
        · exact List.mem_append_right _ (List.mem_singleton_self _)
      · rw [if_neg hscn]
        simp

/-- The backward chain walk terminates when no cycle of singly-chained
nodes exists.  Backward steps are converted to forward `SCstep`s through
the adjacency-symmetry hypothesis. -/
theorem walkBackward_no_hang (g : Graph)
    (hsym : ∀ x y, y ∈ g.get_srcs x → x ∈ g.get_dsts y)
    (hnocyc : ∀ v, ¬ Relation.TransGen (SCstep g) v v) :
    ∀ (fuel : ℕ) (current : String) (group visited path : List String),
      g.nodes.length < fuel + path.length →
      path.Nodup →
      (∀ p ∈ path, p ∈ g.nodes) →
      (∀ p ∈ path, Relation.ReflTransGen (SCstep g) current p) →
      current ∈ path →
      is_singly_chained g current = true →
      walkBackward g fuel current group visited ≠ .hang := by
  intro fuel
  induction fuel with
  | zero =>
    intro current group visited path hfuel hnd hsubn _ _ _
    have hle : path.length ≤ g.nodes.length :=
      List.Subperm.length_le (List.Nodup.subperm hnd hsubn)
    omega
  | succ f ih =>
    intro current group visited path hfuel hnd hsubn hreach hcur hsc
    cases hh : (g.get_srcs current).head? with
    | none => simp [walkBackward, hh]
    | some prev =>
      have hmem : prev ∈ g.get_srcs current := by
        cases hl : g.get_srcs current with
        | nil => rw [hl] at hh; cases hh
        | cons a t =>
          rw [hl] at hh
          simp only [List.head?_cons, Option.some.injEq] at hh
          subst hh
          exact List.mem_cons_self _ _
      simp only [walkBackward, hh]
      by_cases hnode : prev ∈ g.nodes
      · rw [if_pos hnode]
        by_cases hscn : is_singly_chained g prev = true
        · rw [if_pos hscn]
          have hstep : SCstep g prev current :=
            ⟨hscn, hsc, hsym current prev hmem⟩
          have hnotin : prev ∉ path := by
            intro hin
            exact hnocyc prev
              (Relation.TransGen.head' hstep (hreach prev hin))
          refine ih prev (group ++ [prev]) (visited ++ [prev]) (path ++ [prev])
            ?_ ?_ ?_ ?_ ?_ hscn
          · simp only [List.length_append, List.length_singleton]
            omega
          · simp [List.nodup_append, hnd, hnotin]
          · intro p hp
            rcases List.mem_append.mp hp with h | h
            · exact hsubn p h
            · simp only [List.mem_singleton] at h
              rw [h]
              exact hnode
          · intro p hp
            rcases List.mem_append.mp hp with h | h
            · exact Relation.ReflTransGen.head hstep (hreach p h)
            · simp only [List.mem_singleton] at h
              rw [h]
          · exact List.mem_append_right _ (List.mem_singleton_self _)
        · rw [if_neg hscn]
          simp
      · rw [if_neg hnode]
        simp

/-- The main `group_nodes` loop never exhausts the chain walks' fuel when
no cycle of singly-chained nodes exists. -/
theorem groupNodesLoop_no_hang (g : Graph)
    (hwf_d : ∀ x, ∀ y ∈ g.get_dsts x, y ∈ g.nodes)
    (hsym : ∀ x y, y ∈ g.get_srcs x → x ∈ g.get_dsts y)
    (hnocyc : ∀ v, ¬ Relation.TransGen (SCstep g) v v) :
    ∀ (rest visited : List String) (groups : List (ℕ × List String))
      (count : ℕ), (∀ n ∈ rest, n ∈ g.nodes) →
      groupNodesLoop g rest visited groups count ≠ .hang := by
  intro rest
  induction rest with
  | nil => intro visited groups count _; simp [groupNodesLoop]
  | cons node rest ih =>
    intro visited groups count hsub
    have hnode : node ∈ g.nodes := hsub node (List.mem_cons_self _ _)
    have hrest : ∀ n ∈ rest, n ∈ g.nodes :=
      fun n hn => hsub n (List.mem_cons_of_mem _ hn)
    simp only [groupNodesLoop]
    by_cases hvis : node ∈ visited
    · rw [if_pos hvis]
      exact ih visited groups count hrest
    · rw [if_neg hvis]
      by_cases hsc : is_singly_chained g node = true
      · rw [if_pos hsc]
        have hwfne : walkForward g (g.nodes.length + 1) node [node]
            (visited ++ [node]) ≠ .hang := by
          refine walkForward_no_hang g hwf_d hnocyc (g.nodes.length + 1)
            node [node] (visited ++ [node]) [node] ?_ ?_ ?_ ?_ ?_ hsc
          · omega
          · exact List.nodup_singleton _
          · intro p hp
            simp only [List.mem_singleton] at hp
            rw [hp]
            exact hnode
          · intro p hp
            simp only [List.mem_singleton] at hp
            rw [hp]
          · exact List.mem_singleton_self _
        split
        · next heq => exact absurd heq hwfne
        · next => simp
        · next group1 visited2 heq =>
          have hwbne : walkBackward g (g.nodes.length + 1) node group1
              visited2 ≠ .hang := by
            refine walkBackward_no_hang g hsym hnocyc (g.nodes.length + 1)
              node group1 visited2 [node] ?_ ?_ ?_ ?_ ?_ hsc
            · omega
            · exact List.nodup_singleton _
            · intro p hp
              simp only [List.mem_singleton] at hp
              rw [hp]
              exact hnode
            · intro p hp
              simp only [List.mem_singleton] at hp
              rw [hp]
            · exact List.mem_singleton_self _
          split
          · next heq2 => exact absurd heq2 hwbne
          · next => simp
          · next group2 visited3 heq2 =>
            exact ih visited3 (groups ++ [(count, group2)]) (count + 1) hrest
      · rw [if_neg hsc]
        exact ih (visited ++ [node]) groups count hrest

/-- `group_nodes` itself never hangs on a graph without a singly-chained
cycle: every exit path of the model is `.ok` or `.exn`. -/
theorem group_nodes_no_hang (g : Graph)
    (hwf_d : ∀ x, ∀ y ∈ g.get_dsts x, y ∈ g.nodes)
    (hsym : ∀ x y, y ∈ g.get_srcs x → x ∈ g.get_dsts y)
    (hnocyc : ∀ v, ¬ Relation.TransGen (SCstep g) v v) :
    group_nodes g ≠ .hang := by
  have hloop := groupNodesLoop_no_hang g hwf_d hsym hnocyc g.nodes [] [] 1
    (fun _ hn => hn)
  simp only [group_nodes]
  split
  · next heq => exact absurd heq hloop
  · next => simp
  · next visited groups count heq =>
    cases groups with
    | nil => simp
    | cons p gs =>
      dsimp only
      split
      · simp
      · simp

/-- C10: `PowerModel.group_nodes` (Autosearch Phase 1, PowerModel.py lines
391-451) terminates on every graph whose adjacency is internally
consistent (destinations are nodes, and the two adjacency mappings are
mutually symmetric) and that contains no cycle composed entirely of
singly-chained nodes: the model never returns the fuel-exhaustion marker
`.hang`.  Conversely, on any graph containing such a cycle, the forward
chain walk `while True` (lines 412-421) started at a node of the cycle
never reaches a non-singly-chained node: it exhausts every fuel bound,
i.e. the source loop never terminates. -/
theorem C10_group_nodes_termination (g : Graph)
    (hwf_d : ∀ x, ∀ y ∈ g.get_dsts x, y ∈ g.nodes)
    (hsym : ∀ x y, y ∈ g.get_srcs x → x ∈ g.get_dsts y) :
    ((∀ v, ¬ Relation.TransGen (SCstep g) v v) →
      group_nodes g ≠ PyRes.hang) ∧
    (∀ v, Relation.TransGen (SCstep g) v v →
      ∀ (fuel : ℕ) (group visited : List String),
        walkForward g fuel v group visited = PyRes.hang) := by
  constructor
  · intro hnocyc
    exact group_nodes_no_hang g hwf_d hsym hnocyc
  · intro v hcyc fuel group visited
    exact walkForward_hang_of_cycle g hwf_d fuel v group visited hcyc

/-- Two-node chain a → b: no node is singly chained. -/
def gChain : Graph :=
  { nodes := ["a", "b"], srcs_adjlist := [("b", ["a"])],
    dsts_adjlist := [("a", ["b"])], recurrence_edges := [] }

/-- Two-node cycle a → b → a: both nodes are singly chained. -/
def gSCCycle : Graph :=
  { nodes := ["a", "b"],
    srcs_adjlist := [("a", ["b"]), ("b", ["a"])],
    dsts_adjlist := [("a", ["b"]), ("b", ["a"])],
    recurrence_edges := [] }

theorem gChain_wf_d : ∀ x, ∀ y ∈ gChain.get_dsts x, y ∈ gChain.nodes := by
  intro x y hy
  simp only [gChain, Graph.get_dsts, lookupD, alookup] at hy
  by_cases hx : "a" = x
  · rw [if_pos hx] at hy
    simp only [Option.getD_some, List.mem_singleton] at hy
    subst hy
    simp [gChain]
  · rw [if_neg hx] at hy
    simp at hy

theorem gChain_sym :
    ∀ x y, y ∈ gChain.get_srcs x → x ∈ gChain.get_dsts y := by
  intro x y hy
  simp only [gChain, Graph.get_srcs, lookupD, alookup] at hy
  by_cases hx : "b" = x
  · rw [if_pos hx] at hy
    simp only [Option.getD_some, List.mem_singleton] at hy
    subst hy
    rw [← hx]
    decide
  · rw [if_neg hx] at hy
    simp at hy

theorem gChain_nosc : ∀ a, ¬ is_singly_chained gChain a = true := by
  intro a hsc
  simp only [is_singly_chained, Bool.and_eq_true, beq_iff_eq] at hsc
  obtain ⟨h1, h2⟩ := hsc
  by_cases hb : "b" = a
  · have hd : gChain.get_dsts a = [] := by
      rw [← hb]
      decide
    rw [hd] at h2
    simp at h2
  · have hs : gChain.get_srcs a = [] := by
      simp only [gChain, Graph.get_srcs, lookupD, alookup]
      rw [if_neg hb]
      rfl
    rw [hs] at h1
    simp at h1

theorem gChain_nocyc : ∀ v, ¬ Relation.TransGen (SCstep gChain) v v := by
  intro v h
  cases h with
  | single h1 => exact gChain_nosc v h1.1
  | tail h1 h2 => exact gChain_nosc _ h2.1

theorem gSCCycle_wf_d :
    ∀ x, ∀ y ∈ gSCCycle.get_dsts x, y ∈ gSCCycle.nodes := by
  intro x y hy
  simp only [gSCCycle, Graph.get_dsts, lookupD, alookup] at hy
  by_cases hxa : "a" = x
  · rw [if_pos hxa] at hy
    simp only [Option.getD_some, List.mem_singleton] at hy
    subst hy
    simp [gSCCycle]
  · rw [if_neg hxa] at hy
    by_cases hxb : "b" = x
    · rw [if_pos hxb] at hy
      simp only [Option.getD_some, List.mem_singleton] at hy
      subst hy
      simp [gSCCycle]
    · rw [if_neg hxb] at hy
      simp at hy

theorem gSCCycle_sym :
    ∀ x y, y ∈ gSCCycle.get_srcs x → x ∈ gSCCycle.get_dsts y := by
  intro x y hy
  simp only [gSCCycle, Graph.get_srcs, lookupD, alookup] at hy
  by_cases hxa : "a" = x
  · rw [if_pos hxa] at hy
    simp only [Option.getD_some, List.mem_singleton] at hy
    subst hy
    rw [← hxa]
    decide
  · rw [if_neg hxa] at hy
    by_cases hxb : "b" = x
    · rw [if_pos hxb] at hy
      simp only [Option.getD_some, List.mem_singleton] at hy
      subst hy
      rw [← hxb]
      decide
    · rw [if_neg hxb] at hy
      simp at hy

theorem gSCCycle_cyc : Relation.TransGen (SCstep gSCCycle) "a" "a" :=
  Relation.TransGen.head (b := "b") ⟨by decide, by decide, by decide⟩
    (Relation.TransGen.single ⟨by decide, by decide, by decide⟩)

/-- Witness: on the chain a → b (no singly-chained cycle) the grouping
model terminates, and on the two-node singly-chained cycle the forward
walk from "a" exhausts a concrete fuel bound. -/
theorem C10_group_nodes_witness :
    group_nodes gChain ≠ PyRes.hang ∧
    walkForward gSCCycle 5 "a" ["a"] ["a"] = PyRes.hang := by
  constructor
  · exact (C10_group_nodes_termination gChain gChain_wf_d gChain_sym).1
      gChain_nocyc
  · exact (C10_group_nodes_termination gSCCycle gSCCycle_wf_d
      gSCCycle_sym).2 "a" gSCCycle_cyc 5 ["a"] ["a"]

/-! ## Claim C3: binary64 arithmetic of the fast-clock snap

The snap at Simulator.py lines 548-555 operates on Python floats (IEEE-754
binary64).  A float is embedded as a pair `m * 2^e` with the canonical
53-bit mantissa (`2^52 ≤ |m| < 2^53`, or `⟨0, 0⟩` for zero), so Python
`==` is structural equality.  The model covers the normal finite range
exercised by the simulator. -/

/-- Bit length of a natural number (fuel-based so the kernel can
evaluate it). -/
def blen : ℕ → ℕ → ℕ
  | 0, _ => 0
  | f + 1, n => if n = 0 then 0 else blen f (n / 2) + 1

/-- Integer division rounding to nearest, ties to even (the IEEE-754
default rounding used by Python float arithmetic and by `round`). -/
def roundDivEven (num den : ℕ) : ℕ :=
  let q0 := num / den
  let r := num % den
  if 2 * r > den ∨ (2 * r = den ∧ q0 % 2 = 1) then q0 + 1 else q0

/-- A binary64 value `m * 2^e` in canonical form. -/
structure F64 where
  m : ℤ
  e : ℤ
deriving DecidableEq, Repr

/-- Canonicalize an exact dyadic value `M * 2^E` to binary64, rounding
to 53 mantissa bits (nearest, ties to even) when needed. -/
def normalizeF64 (M E : ℤ) : F64 :=
  if M = 0 then ⟨0, 0⟩ else
  let n := M.natAbs
  let sign : ℤ := if M < 0 then -1 else 1
  let b := blen 200 n
  if b ≤ 53 then
    ⟨sign * ((n * 2 ^ (53 - b) : ℕ) : ℤ), E - ((53 - b : ℕ) : ℤ)⟩
  else
    let s := b - 53
    let m0 := roundDivEven n (2 ^ s)
    if m0 = 2 ^ 53 then ⟨sign * 2 ^ 52, E + s + 1⟩
    else ⟨sign * (m0 : ℤ), E + s⟩

/-- Binary64 addition: the exact dyadic sum, rounded to binary64 (this
is the IEEE-754 semantics of Python `+` on floats, as in
`sim_node.time += sim_node.node.T`). -/
def fadd (a b : F64) : F64 :=
  if a.e ≤ b.e then
    normalizeF64 (a.m + b.m * 2 ^ (b.e - a.e).toNat) a.e
  else
    normalizeF64 (b.m + a.m * 2 ^ (a.e - b.e).toNat) b.e

/-- The binary64 nearest to the rational `p / q` (the value of a Python
decimal literal such as `0.66`, and the round-trip reading of a decimal
string). -/
def roundRatF64 (p : ℤ) (q : ℕ) : F64 :=
  if p = 0 ∨ q = 0 then ⟨0, 0⟩ else
  let n := p.natAbs
  let sign : ℤ := if p < 0 then -1 else 1
  let D : ℤ := (blen 200 n : ℤ) - (blen 200 q : ℤ)
  let hi : Bool :=
    if 0 ≤ D then decide (q * 2 ^ D.toNat ≤ n)
    else decide (q ≤ n * 2 ^ (-D).toNat)
  let E : ℤ := if hi then D else D - 1
  let shift : ℤ := 52 - E
  let m0 : ℕ :=
    if 0 ≤ shift then roundDivEven (n * 2 ^ shift.toNat) q
    else roundDivEven n (q * 2 ^ (-shift).toNat)
  if m0 = 2 ^ 53 then ⟨sign * 2 ^ 52, E - 51⟩
  else ⟨sign * (m0 : ℤ), E - 52⟩

/-- Round `x * s` to the nearest integer, ties to even (`scaleRound x 1`
is Python `round(x)` on a float). -/
def scaleRound (x : F64) (s : ℕ) : ℤ :=
  if 0 ≤ x.e then x.m * s * 2 ^ x.e.toNat
  else
    let sign : ℤ := if x.m < 0 then -1 else 1
    sign * ((roundDivEven (x.m.natAbs * s) (2 ^ (-x.e).toNat) : ℕ) : ℤ)

/-- Model of `str(x).endswith('.98')` for a float `x` in the fixed-point
repr range: Python repr prints the shortest round-tripping decimal, so
the string ends in `.98` exactly when the two-fractional-digit nearest
decimal round-trips, no shorter one (one fractional digit, or an
integer) does, and its last two digits are 98. -/
def pyStrEndsWithDot98 (x : F64) : Bool :=
  let c2 := scaleRound x 100
  let c1 := scaleRound x 10
  let c0 := scaleRound x 1
  (roundRatF64 c2 100 == x) && !(roundRatF64 c1 10 == x) &&
    !(roundRatF64 c0 1 == x) && (c2.natAbs % 100 == 98)

/-- Model of the node-time advance with the fast-clock snap
(Simulator.py lines 547-554): `sim_node.time += sim_node.node.T`, then
if `sim_node.node.T == 0.66` and `str(sim_node.time).endswith('.98')`,
`sim_node.time = round(sim_node.time)` (an exact small integer, hence
representable). -/
def advance_node_time (T time : F64) : F64 :=
  let t := fadd time T
  if T = roundRatF64 66 100 ∧ pyStrEndsWithDot98 t = true then
    roundRatF64 (scaleRound t 1) 1
  else t

set_option maxRecDepth 40000 in
/-- C3: starting a node with period `T = 0.66` from time `0.0` and
advancing by `T` after each tick, the third tick produces the binary64
sum `1.98` (whose repr ends in `.98`), and the snap rounds the node time
to exactly `2`; the final scheduled time is the float `2.0` and not the
float `1.98`. -/
theorem C3_fast_clock_snap :
    advance_node_time (roundRatF64 66 100)
        (advance_node_time (roundRatF64 66 100)
          (advance_node_time (roundRatF64 66 100) (roundRatF64 0 1))) =
      roundRatF64 2 1 ∧
    fadd (advance_node_time (roundRatF64 66 100)
        (advance_node_time (roundRatF64 66 100) (roundRatF64 0 1)))
      (roundRatF64 66 100) = roundRatF64 198 100 ∧
    roundRatF64 2 1 ≠ roundRatF64 198 100 := by
  decide

/-! ## Claim C7: `Graph.dump_vf_json` -/

/-- Binary64 `<` comparison (Python float comparison in
`node.V < 0.65` / `node.V < 0.95`). -/
def flt (a b : F64) : Bool :=
  if a.e ≤ b.e then decide (a.m < b.m * 2 ^ (b.e - a.e).toNat)
  else decide (a.m * 2 ^ (a.e - b.e).toNat < b.m)

/-- Python `str.startswith`. -/
def startswith (a b : String) : Bool :=
  b.data.isPrefixOf a.data

/-- One decimal digit as a string. -/
def digitStr (d : ℕ) : String :=
  ["0", "1", "2", "3", "4", "5", "6", "7", "8", "9"].getD d ""

/-- Decimal rendering of a natural number (fuel-based), modelling
Python `'{}'.format(xi)`. -/
def natToStr : ℕ → ℕ → String
  | 0, _ => ""
  | f + 1, n => if n < 10 then digitStr n else natToStr f (n / 10) ++ digitStr (n % 10)

/-- Model of the local `get_name` (Graph.py lines 193-195):
`'x{}_y{}'.format(xi, yi)`. -/
def get_name (xi yi : ℕ) : String :=
  "x" ++ natToStr 20 xi ++ "_y" ++ natToStr 20 yi

/-- The voltage-threshold chain of Graph.py lines 205-207 mapping a
node's final voltage to the dvfs label written into the record. -/
def dvfs_label (V : F64) : String :=
  if flt V (roundRatF64 65 100) then "rest"
  else if flt V (roundRatF64 95 100) then "nominal"
  else "sprint"

/-- Lookup of a node's voltage by exact name (`s.get_node(name).V`,
first occurrence in `s.nodes` order). -/
def get_node_V : List (String × F64) → String → Option F64
  | [], _ => none
  | p :: rest, k => if p.1 = k then some p.2 else get_node_V rest k

/-- One tile record of the config json: coordinates plus all other
fields (kept abstract as string pairs). -/
structure TileRecord where
  x : ℕ
  y : ℕ
  fields : List (String × String)
deriving DecidableEq, Repr

/-- Model of the per-record loop of `Graph.dump_vf_json` (Graph.py lines
199-207): for each record, take the FIRST node whose name merely starts
with `x{xi}_y{yi}` (the `[ _ for _ in s.all_nodes() if _.startswith(name)
][0]` selection; an empty match list raises, hence `none`), and pair the
unchanged record with the dvfs label of that node's voltage. -/
def dump_vf_records (nodes : List (String × F64)) :
    List TileRecord → Option (List (TileRecord × String))
  | [] => some []
  | c :: rest =>
    match (nodes.filter (fun p => startswith p.1 (get_name c.x c.y))).head? with
    | none => none
    | some p =>
      match dump_vf_records nodes rest with
      | none => none
      | some out => some ((c, dvfs_label p.2) :: out)

/-- Counterexample to C7 as stated: with nodes `x0_y11` (V = 1.23) and
`x0_y1` (V = 0.61), the record for tile (0,1) is labelled from the
prefix-colliding node `x0_y11` — "sprint" — although its own node
`x0_y1` has V = 0.61, which the claimed thresholds map to "rest". -/
theorem C7_counterexample :
    dump_vf_records
        [("x0_y11", roundRatF64 123 100), ("x0_y1", roundRatF64 61 100)]
        [⟨0, 1, []⟩] =
      some [(⟨0, 1, []⟩, "sprint")] ∧
    get_node_V
        [("x0_y11", roundRatF64 123 100), ("x0_y1", roundRatF64 61 100)]
        (get_name 0 1) = some (roundRatF64 61 100) ∧
    dvfs_label (roundRatF64 61 100) = "rest" ∧
    "sprint" ≠ "rest" := by
  decide

/-- C7 (amended): whenever for every record the first `startswith` match
in node order is the record's own node `x{xi}_y{yi}` (no prefix
collision shadows it), `dump_vf_json` labels every record by its own
node's final voltage through the rest/nominal/sprint thresholds and
preserves the record's other fields. -/
theorem C7_dump_vf_json_amended (nodes : List (String × F64))
    (data : List TileRecord)
    (h : ∀ c ∈ data, ∃ V,
      (nodes.filter (fun p => startswith p.1 (get_name c.x c.y))).head? =
        some (get_name c.x c.y, V) ∧
      get_node_V nodes (get_name c.x c.y) = some V) :
    ∃ out, dump_vf_records nodes data = some out ∧
      List.Forall₂ (fun c r => r.1 = c ∧ ∃ V,
        get_node_V nodes (get_name c.x c.y) = some V ∧
        r.2 = dvfs_label V) data out := by
  induction data with
  | nil => exact ⟨[], rfl, List.Forall₂.nil⟩
  | cons c rest ih =>
    obtain ⟨V, hhead, hlook⟩ := h c (List.mem_cons_self _ _)
    obtain ⟨out, hout, hfa⟩ := ih (fun d hd => h d (List.mem_cons_of_mem _ hd))
    refine ⟨(c, dvfs_label V) :: out, ?_,
      List.Forall₂.cons ⟨rfl, V, hlook, rfl⟩ hfa⟩
    simp only [dump_vf_records, hhead, hout]

/-- Witness: a two-tile configuration with collision-free names, labelled
"rest" (V = 0.61) and "nominal" (V = 0.9), other fields preserved. -/
theorem C7_dump_vf_json_witness :
    ∃ out, dump_vf_records
        [("x0_y0", roundRatF64 61 100), ("x1_y0", roundRatF64 9 10)]
        [⟨0, 0, [("op", "mul")]⟩, ⟨1, 0, []⟩] = some out ∧
      List.Forall₂ (fun c r => r.1 = c ∧ ∃ V,
        get_node_V [("x0_y0", roundRatF64 61 100), ("x1_y0", roundRatF64 9 10)]
          (get_name c.x c.y) = some V ∧
        r.2 = dvfs_label V)
        [⟨0, 0, [("op", "mul")]⟩, ⟨1, 0, []⟩] out := by
  refine C7_dump_vf_json_amended _ _ ?_
  intro c hc
  simp only [List.mem_cons, List.not_mem_nil, or_false] at hc
  rcases hc with rfl | rfl
  · exact ⟨roundRatF64 61 100, by decide, by decide⟩
  · exact ⟨roundRatF64 9 10, by decide, by decide⟩

/-! ## Claim C4 -/

/-- C4: `Token.guarded_read t` returns the stored value exactly when the
guard is armed and `t - guard_begin - guard_span > -0.001`; in every other
case (guard not armed, or the elapsed-time test fails) it returns False
(0).  The source method mutates nothing, which the embedding reflects by
being a plain function of the token. -/
theorem C4_guarded_read_spec (t : Token) (time : ℚ) :
    (t.guard_set = true → time - t.guard_begin - t.guard_span > -(1/1000) →
      t.guarded_read time = t.value) ∧
    (t.guard_set = false → t.guarded_read time = 0) ∧
    (t.guard_set = true → ¬ (time - t.guard_begin - t.guard_span > -(1/1000)) →
      t.guarded_read time = 0) := by
  unfold Token.guarded_read
  refine ⟨fun hs hgt => ?_, fun hs => ?_, fun hs hle => ?_⟩ <;>
    simp only [hs, if_true, if_false, Bool.false_eq_true]
  · rw [if_pos hgt]
  · rw [if_neg hle]

/-- Witness for C4 at a concrete token and times on both sides of the
guard boundary. -/
theorem C4_guarded_read_witness :
    (Token.mk 7 1 1 true).guarded_read 2 = 7 ∧
    (Token.mk 7 1 1 true).guarded_read 0 = 0 :=
  ⟨(C4_guarded_read_spec (Token.mk 7 1 1 true) 2).1 rfl (by norm_num),
   (C4_guarded_read_spec (Token.mk 7 1 1 true) 0).2.2 rfl (by norm_num)⟩

/-! ## Claim C9 -/

/-- C9: because `P_tile_static V = V * I_L` and `I_L` is proportional to
`P_tile_dynamic V_N mul`, itself proportional to the cached throughput,
every power and energy aggregate of the model is 0 whenever the cached
throughput is 0; in particular `P_alloc` in the constructor state (which
initializes throughput to 0 without running the simulator) is 0. -/
theorem C9_zero_throughput_all_aggregates_zero
    (pm : PowerModel) (h : pm.throughput = 0) :
    I_L pm = 0 ∧
    (∀ V, P_tile_static pm V = 0) ∧
    (∀ V op, P_tile_dynamic pm V op = 0) ∧
    (∀ V op, P_tile_total pm V op = 0) ∧
    (∀ V op, E_tile_total pm V op = 0) ∧
    (∀ V, P_sram_static pm V = 0) ∧
    (∀ V, P_sram_dynamic pm V = 0) ∧
    (∀ V, P_sram_total pm V = 0) ∧
    (∀ V, E_sram_total pm V = 0) ∧
    P_cgra_static_tiles pm = 0 ∧
    P_cgra_static_srams pm = 0 ∧
    P_cgra_dynamic_tiles pm = 0 ∧
    P_cgra_dynamic_srams pm = 0 ∧
    P_cgra_static pm = 0 ∧
    P_cgra_dynamic pm = 0 ∧
    P_cgra_tiles pm = 0 ∧
    P_cgra_srams pm = 0 ∧
    P_cgra_total pm = 0 ∧
    E_cgra_static_tiles pm = 0 ∧
    E_cgra_static_srams pm = 0 ∧
    E_cgra_dynamic_tiles pm = 0 ∧
    E_cgra_dynamic_srams pm = 0 ∧
    E_cgra_static pm = 0 ∧
    E_cgra_dynamic pm = 0 ∧
    E_cgra_tiles pm = 0 ∧
    E_cgra_srams pm = 0 ∧
    E_cgra_total pm = 0 ∧
    P_alloc pm = 0 ∧
    (∀ nodes l_nodes, P_alloc (PowerModel.mk_init nodes l_nodes) = 0) := by
  have hdyn : ∀ V op, P_tile_dynamic pm V op = 0 := by
    intro V op; simp [P_tile_dynamic, h]
  have hIL : I_L pm = 0 := by simp [I_L, hdyn]
  have hts : ∀ V, P_tile_static pm V = 0 := by
    intro V; simp [P_tile_static, hIL]
  have hss : ∀ V, P_sram_static pm V = 0 := by
    intro V; simp [P_sram_static, hIL]
  have hsd : ∀ V, P_sram_dynamic pm V = 0 := by
    intro V; simp [P_sram_dynamic, h]
  have hct : P_cgra_static_tiles pm = 0 := by
    refine List.sum_eq_zero fun x hx => ?_
    obtain ⟨n, _, rfl⟩ := List.mem_map.mp hx
    exact hts n.V
  have hcs : P_cgra_static_srams pm = 0 := by
    refine List.sum_eq_zero fun x hx => ?_
    obtain ⟨n, _, rfl⟩ := List.mem_map.mp hx
    exact hss n.V
  have hdt : P_cgra_dynamic_tiles pm = 0 := by
    refine List.sum_eq_zero fun x hx => ?_
    obtain ⟨n, _, rfl⟩ := List.mem_map.mp hx
    exact hdyn n.V n.op
  have hds : P_cgra_dynamic_srams pm = 0 := by
    refine List.sum_eq_zero fun x hx => ?_
    obtain ⟨n, _, rfl⟩ := List.mem_map.mp hx
    exact hsd n.V
  have halloc : ∀ pm2 : PowerModel, pm2.throughput = 0 → P_alloc pm2 = 0 := by
    intro pm2 h2
    simp [P_alloc, P_tile_total, P_sram_total, P_tile_static, P_sram_static,
      P_tile_dynamic, P_sram_dynamic, I_L, h2]
  refine ⟨hIL, hts, hdyn, ?_, ?_, hss, hsd, ?_, ?_, hct, hcs, hdt, hds,
    ?_, ?_, ?_, ?_, ?_, ?_, ?_, ?_, ?_, ?_, ?_, ?_, ?_, ?_, halloc pm h,
    fun nodes l_nodes => halloc (PowerModel.mk_init nodes l_nodes) rfl⟩ <;>
    simp [P_tile_total, E_tile_total, P_sram_total, E_sram_total,
      P_cgra_static, P_cgra_dynamic, P_cgra_tiles, P_cgra_srams,
      P_cgra_total, E_cgra_static_tiles, E_cgra_static_srams,
      E_cgra_dynamic_tiles, E_cgra_dynamic_srams, E_cgra_static,
      E_cgra_dynamic, E_cgra_tiles, E_cgra_srams, E_cgra_total,
      hts, hdyn, hss, hsd, hct, hcs, hdt, hds]

/-- Witness for C9 at a concrete model state with one mul node, one sram
node and zero cached throughput. -/
theorem C9_zero_throughput_witness :
    P_cgra_total
      (PowerModel.mk [PMNode.mk "a" (9/10) .mul] [PMNode.mk "a" (9/10) .mul] 0 5) = 0 ∧
    P_alloc
      (PowerModel.mk [PMNode.mk "a" (9/10) .mul] [PMNode.mk "a" (9/10) .mul] 0 5) = 0 :=
  ⟨(C9_zero_throughput_all_aggregates_zero
      (PowerModel.mk [PMNode.mk "a" (9/10) .mul] [PMNode.mk "a" (9/10) .mul] 0 5)
      rfl).2.2.2.2.2.2.2.2.2.2.2.2.2.2.2.2.2.1,
   (C9_zero_throughput_all_aggregates_zero
      (PowerModel.mk [PMNode.mk "a" (9/10) .mul] [PMNode.mk "a" (9/10) .mul] 0 5)
      rfl).2.2.2.2.2.2.2.2.2.2.2.2.2.2.2.2.2.2.2.2.2.2.2.2.2.2.2.1⟩

/-! ## Claim C1 -/

/-- C1: evaluation of the Phase-3 commit choice at a failing input.  With
candidates 0.61 (ED product 2.0) and 0.90 (ED product 0.5) the loop
commits 0.90 even though its ED product 0.5 is far below 0.99 times the
best product (0.99 * 2 = 1.98): the `max_ed >= 0.99*value` test holds for
every positive candidate, so the loop always keeps the last candidate in
iteration order, contradicting the spec's claimed
`ed_product[chosen] >= 0.99 * max` rule and the source comment "Pick the
option with the highest ED product". -/
theorem C1_phase3_pick_failing_input :
    pick_max_vf [(61/100, 2), (9/10, 1/2)] = 9/10 ∧
    ed_of [(61/100, 2), (9/10, 1/2)] (9/10) = 1/2 ∧
    pyMax ([(61/100, 2), (9/10, 1/2)].map Prod.snd) = 2 ∧
    ¬ ((1:ℚ)/2 ≥ 99/100 * 2) := by
  refine ⟨?_, ?_, ?_, by norm_num⟩ <;>
    norm_num [pick_max_vf, pyMax, ed_of, List.filter]

end UECGRA
